import Mathlib

/-!
# Verification of the Quote Assembly & Validation Engine

A shallow embedding, in Lean 4, of the core of the `shakespeare_ai_client`
repository: the session-scoped usage ledger (`modules/rag/used_map.py`),
the phrase and fragment chunkers (`modules/chunking/phrase_chunker.py`,
`modules/chunking/fragment_chunker.py`), the MMR candidate ranker
(`modules/translator/selector.py`), the assembler's local re-validation
(`modules/translator/assembler.py`), the ground-truth validator
(`modules/validation/validator.py`) and the per-line translation workflow
(`modules/translator/translation_manager.py`).

Python dictionaries are modelled as association lists or total functions,
Python sets of strings as lists of strings (only membership matters),
machine integers as `Nat`/`Int`, floats as `ℚ` (only order and field
operations are used by the ranked selection), and code that may raise is
modelled in an `Except Unit` monad; every `try/except Exception` in the
source becomes an explicit handler.  The external collaborators (vector
store, LLM oracle, spaCy tokenizer) are opaque parameters, exactly as the
code treats them.  Metadata fields no theorem mentions (syllable counts,
POS tags, mood) are not carried by the chunk records.
-/

namespace ShakespeareAI

/-! ## UsedMap (`modules/rag/used_map.py`)

`UsedMap` keeps `used_maps : translation_id -> (reference_key -> set of
range strings)` plus the id of the active session.  The backing directory
of JSON files is modelled as `files : String -> Option LedgerData`
(`none` = the file does not exist or cannot be parsed; `load` treats both
the same way, initialising an empty map).  A Python `set` of strings is a
`List String` whose membership is the only observable. -/

/-- One persisted ledger: `reference_key -> list of range strings`. -/
def LedgerData : Type := List (String × List String)

/-- State of a `UsedMap` instance together with its storage directory. -/
structure UsedMapState where
  active_translation_id : Option String
  /-- `used_maps[tid][reference_key]` as a curried total function;
  absent entries are the empty list, matching `dict.get(…, {})`/`set()`. -/
  used_maps : String → String → List String
  /-- the ledger files on disk, keyed by translation id -/
  files : String → Option LedgerData

/-- `context_range` may arrive as a string or as a list of ints
(`Union[str, List[int]]` in the source). -/
inductive ContextRange where
  | str (s : String)
  | ints (l : List Int)
deriving DecidableEq, Repr

/-- `",".join(str(i) for i in context_range)` / `str(context_range)`:
the string a range is serialised to in both `mark_used` and `was_used`. -/
def contextStr : ContextRange → String
  | .str s => s
  | .ints l => String.intercalate "," (l.map toString)

/-- Look a key up in a persisted ledger (first binding wins, as in a
parsed JSON object whose keys are unique). -/
def ledgerLookup (d : LedgerData) (k : String) : List String :=
  match d.find? (fun p => p.1 == k) with
  | some p => p.2
  | none => []

/-- `UsedMap.load`: set the active id and (re)initialise the in-memory
map for it from the file, or to the empty map when the file is missing
or unparseable.  Never raises: the parse failure branch of the source is
the `none` case of `files`. -/
def UsedMap.load (tid : String) (m : UsedMapState) : UsedMapState :=
  { m with
    active_translation_id := some tid
    used_maps := fun t k =>
      if t = tid then
        match m.files tid with
        | some d => ledgerLookup d k
        | none => []
      else m.used_maps t k }

/-- `UsedMap.mark_used`: no-op (plus a logged error) when no session is
active; otherwise add the serialised range to the active session's set
for `reference_key`. -/
def UsedMap.mark_used (reference_key : String) (context_range : ContextRange)
    (m : UsedMapState) : UsedMapState :=
  match m.active_translation_id with
  | none => m
  | some tid =>
    { m with
      used_maps := fun t k =>
        if t = tid ∧ k = reference_key then
          contextStr context_range :: m.used_maps t k
        else m.used_maps t k }

/-- `UsedMap.was_used`: `False` (plus a logged warning) when no session
is active; otherwise membership of the serialised range. -/
def UsedMap.was_used (reference_key : String) (context_range : ContextRange)
    (m : UsedMapState) : Bool :=
  match m.active_translation_id with
  | none => false
  | some tid => (m.used_maps tid reference_key).contains (contextStr context_range)

/-- `UsedMap.save`: serialise the in-memory map of the given (or active)
id to its file.  Since `used_maps t` is a total function we persist it as
a function too; only `load` reads files back, so persisting the restricted
function keyed by the same ids is faithful.  With no active id this is a
no-op (logged error). -/
def UsedMap.save (tid? : Option String) (m : UsedMapState)
    (keys : List String) : UsedMapState :=
  match tid?.orElse (fun _ => m.active_translation_id) with
  | none => m
  | some tid =>
    { m with files := fun t =>
        if t = tid then some (keys.map (fun k => (k, m.used_maps tid k)))
        else m.files t }

/-! ## Text utilities shared by the chunkers and the validator -/

/-- `_normalize_quotes` (identical in all chunkers and the validator):
replace curly quotes/apostrophes with plain ASCII.  The four sequential
`str.replace` calls are single-character substitutions on disjoint
characters, hence one character map. -/
def normalizeQuotes (s : String) : String :=
  String.mk (s.toList.map (fun c =>
    if c = '‘' ∨ c = '’' then '\''
    else if c = '“' ∨ c = '”' then '\"' else c))

/-- `" ".join(words)`. -/
def joinSpace : List String → String
  | [] => ""
  | [s] => s
  | s :: rest => s ++ " " ++ joinSpace rest

/-- A `\w` character of the fallback regex: alphanumeric or underscore
(the model is ASCII-faithful; every concrete input below is ASCII). -/
def isWordChar (c : Char) : Bool := c.isAlphanum || c = '_'

/-- Maximal runs of characters satisfying `p` (accumulator reversed). -/
def splitRunsAux (p : Char → Bool) (cur : List Char) : List Char → List (List Char)
  | [] => if cur.isEmpty then [] else [cur.reverse]
  | c :: rest =>
    if p c then splitRunsAux p (c :: cur) rest
    else if cur.isEmpty then splitRunsAux p [] rest
    else cur.reverse :: splitRunsAux p [] rest

/-- Strip leading and trailing apostrophes from a character run. -/
def dropApostrophes (l : List Char) : List Char :=
  ((l.dropWhile (· = '\'')).reverse.dropWhile (· = '\'')).reverse

/-- The fallback tokenizer `re.findall(r"\b\w[\w']*\b", line)` used by
every chunker and the validator when spaCy is unavailable: each maximal
run of word-or-apostrophe characters, stripped of leading and trailing
apostrophes, yields one token when a word character remains. -/
def fallbackTokenize (s : String) : List String :=
  ((splitRunsAux (fun c => isWordChar c || c = '\'') [] s.toList).map
      dropApostrophes).filterMap
    (fun l => if l.isEmpty then none else some (String.mk l))

/-- Python `str.strip()` on a character list. -/
def trimChars (l : List Char) : List Char :=
  ((l.dropWhile Char.isWhitespace).reverse.dropWhile Char.isWhitespace).reverse

/-- Python `str.strip()`. -/
def pyStrip (s : String) : String := String.mk (trimChars s.toList)

/-- `str.split(sep)` for a single-character separator, keeping empty
parts (`"".split(",") == [""]`). -/
def splitCharAux (sep : Char) (cur : List Char) : List Char → List (List Char)
  | [] => [cur.reverse]
  | c :: rest =>
    if c = sep then cur.reverse :: splitCharAux sep [] rest
    else splitCharAux sep (c :: cur) rest

/-- See `splitCharAux`. -/
def pySplit (sep : Char) (s : String) : List String :=
  (splitCharAux sep [] s.toList).map String.mk

/-- The digits of a decimal numeral. -/
def parseNatChars (l : List Char) : Option Nat :=
  if l ≠ [] ∧ l.all Char.isDigit then
    some (l.foldl (fun acc c => acc * 10 + (c.toNat - '0'.toNat)) 0)
  else none

/-- Python `int(s)`: optional sign, decimal digits, surrounding
whitespace tolerated; anything else raises (`none`). -/
def pyToInt (s : String) : Option Int :=
  match trimChars s.toList with
  | '-' :: rest => (parseNatChars rest).map (fun n => -(n : Int))
  | '+' :: rest => (parseNatChars rest).map (fun n => (n : Int))
  | l => (parseNatChars l).map (fun n => (n : Int))

/-! ## Chunkers (`modules/chunking/phrase_chunker.py`,
`modules/chunking/fragment_chunker.py`)

The spaCy tokenizer is an opaque parameter `tok : String → List String`
(the per-token POS tags are not carried: no claim mentions them), the
spaCy dependency subtrees an opaque `subtreesOf : String → List (List
String)` giving, in source order, the word texts of each subtree; the
no-spaCy mode is `tok := fallbackTokenize`, `subtreesOf := fun _ => []`.
Chunk records keep the fields the claims are about (reference identity,
text, word-index range, word count, position, totals); syllable counts,
POS lists and mood are omitted. -/

/-- The input records of `chunk_from_line_chunks` (one corpus line). -/
structure LineChunk where
  chunk_id : String
  title : String
  act : Option String
  scene : Option String
  line : String
  text : String
deriving DecidableEq, Repr

/-- The word indices `range(start, end + 1)` of an inclusive range. -/
def rangeSet (s e : Nat) : List Nat := List.range' s (e + 1 - s)

/-- `any(idx in used_indices for idx in range(start, end + 1))`. -/
def overlaps (used : List Nat) (s e : Nat) : Bool :=
  (rangeSet s e).any (fun i => used.contains i)

/-- The alignment search both chunkers use: the first index `i` at which
`pattern` occurs as a contiguous slice of `tokens`
(`for i in range(len(token_words) - len(pattern) + 1): if token_words[i:i+len] == pattern`).
An over-long pattern gives an empty Python `range`, hence `none`. -/
def findSlice (tokens pattern : List String) : Option Nat :=
  if pattern.length > tokens.length then none
  else (List.range (tokens.length - pattern.length + 1)).find?
    (fun i => (tokens.drop i).take pattern.length == pattern)

/-- A character splitting a line into major phrase parts
(`re.compile(r'([.!?;:])')`). -/
def isPhraseDelim (c : Char) : Bool :=
  c = '.' || c = '!' || c = '?' || c = ';' || c = ':'

/-- `re.split(r'([.!?;:])', line_text)`: the parts between delimiters
(empty parts included) interleaved with the single-character delimiter
parts. -/
def splitKeepDelimsAux (cur : List Char) : List Char → List (List Char)
  | [] => [cur.reverse]
  | c :: rest =>
    if isPhraseDelim c then cur.reverse :: [c] :: splitKeepDelimsAux [] rest
    else splitKeepDelimsAux (c :: cur) rest

/-- See `splitKeepDelimsAux`. -/
def splitKeepDelims (s : List Char) : List (List Char) := splitKeepDelimsAux [] s

/-- `phrase_pattern.match(part)`: does the part start with a delimiter? -/
def isDelimPart (d : List Char) : Bool :=
  match d with
  | c :: _ => isPhraseDelim c
  | [] => false

/-- The `while i < len(major_parts)` recombination loop: a text part
followed by a delimiter part becomes one phrase; a lone text part is kept
when it is not blank. -/
def recombine : List (List Char) → List (List Char)
  | [] => []
  | [t] => if (trimChars t).isEmpty then [] else [t]
  | t :: d :: rest =>
    if isDelimPart d then (t ++ d) :: recombine rest
    else if (trimChars t).isEmpty then recombine (d :: rest)
    else t :: recombine (d :: rest)

/-- The comma pass: split a phrase on `','`, strip each part, keep
non-blank parts, re-appending a comma to every part but the last. -/
def commaSplit (phrase : List Char) : List (List Char) :=
  let parts := splitCharAux ',' [] phrase
  (parts.enum.map (fun p =>
    let cleaned := trimChars p.2
    if cleaned.isEmpty then []
    else if p.1 + 1 < parts.length then [cleaned ++ [',']]
    else [cleaned])).flatten

/-- `final_phrases` of `PhraseChunker.chunk_from_line_chunks` for one
(already quote-normalized) line text. -/
def finalPhrases (s : String) : List String :=
  (((recombine (splitKeepDelims s.toList)).map commaSplit).flatten).map
    (fun l => String.mk l)

/-- A phrase chunk (`phrase_chunker.py`, fields the claims mention). -/
structure PhraseChunk where
  title : String
  act : Option String
  scene : Option String
  line : String
  text : String
  word_index_start : Nat
  word_index_end : Nat
  word_count : Nat
  phrase_position : Nat
  total_phrases_in_line : Nat
deriving DecidableEq, Repr

/-- The `for phrase_idx, phrase in enumerate(final_phrases)` loop:
phrases shorter than 3 words are skipped; the phrase is located by
`findSlice` (first match wins); an overlap with `used_indices` at that
first match skips the phrase; an accepted phrase emits a chunk and
claims its index range. -/
def phraseLoop (tok : String → List String) (tokenWords : List String)
    (lc : LineChunk) (total : Nat) :
    List (Nat × String) → List Nat → List PhraseChunk
  | [], _ => []
  | (idx, phrase) :: rest, used =>
    let phraseWords := tok phrase
    if phraseWords.length < 3 then phraseLoop tok tokenWords lc total rest used
    else
      match findSlice tokenWords phraseWords with
      | none => phraseLoop tok tokenWords lc total rest used
      | some s =>
        let e := s + phraseWords.length - 1
        if overlaps used s e then phraseLoop tok tokenWords lc total rest used
        else
          { title := lc.title, act := lc.act, scene := lc.scene, line := lc.line
            text := joinSpace phraseWords
            word_index_start := s, word_index_end := e
            word_count := phraseWords.length
            phrase_position := idx
            total_phrases_in_line := total } ::
            phraseLoop tok tokenWords lc total rest (used ++ rangeSet s e)

/-- Phrase chunks of one line chunk: normalize quotes, tokenize the
line, split it into `final_phrases`, then run the acceptance loop with
an initially empty `used_indices`.  `total_phrases_in_line` is fixed to
`len(final_phrases)` before any filtering, exactly as in the source. -/
def phraseChunksOf (tok : String → List String) (lc : LineChunk) : List PhraseChunk :=
  let lineText := normalizeQuotes lc.text
  let tokenWords := tok lineText
  let fps := finalPhrases lineText
  phraseLoop tok tokenWords lc fps.length fps.enum []

/-- `PhraseChunker.chunk_from_line_chunks`. -/
def phrase_chunk_from_line_chunks (tok : String → List String)
    (lineChunks : List LineChunk) : List PhraseChunk :=
  lineChunks.flatMap (phraseChunksOf tok)

/-- A fragment chunk (`fragment_chunker.py`, fields the claims mention).
`total_fragments_in_line` starts out `None` and is filled in by the final
pass over all chunks, as in the source. -/
structure FragmentChunk where
  title : String
  act : Option String
  scene : Option String
  line : String
  text : String
  word_index_start : Nat
  word_index_end : Nat
  word_count : Nat
  fragment_position : Nat
  total_fragments_in_line : Option Nat
deriving DecidableEq, Repr

/-- The primary (subtree) strategy of
`FragmentChunker.chunk_from_line_chunks`: each spaCy subtree, given as
its list of word texts in source order, is skipped unless its word count
lies in `[min_words, max_words]`; it is located by `findSlice` (first
match wins, an overlap at that match raises and skips the subtree);
accepted subtrees emit a chunk and claim their range. -/
def subtreeLoop (tokenWords : List String) (minW maxW : Nat) (lc : LineChunk) :
    List (List String) → Nat → List Nat → List FragmentChunk
  | [], _, _ => []
  | words :: rest, fragIdx, used =>
    if words.length < minW ∨ words.length > maxW then
      subtreeLoop tokenWords minW maxW lc rest fragIdx used
    else
      match findSlice tokenWords words with
      | none => subtreeLoop tokenWords minW maxW lc rest fragIdx used
      | some s =>
        let e := s + words.length - 1
        if overlaps used s e then subtreeLoop tokenWords minW maxW lc rest fragIdx used
        else
          { title := lc.title, act := lc.act, scene := lc.scene, line := lc.line
            text := joinSpace words
            word_index_start := s, word_index_end := e
            word_count := words.length
            fragment_position := fragIdx
            total_fragments_in_line := none } ::
            subtreeLoop tokenWords minW maxW lc rest (fragIdx + 1) (used ++ rangeSet s e)

/-- The inner `for window_size in range(max_words, min_words - 1, -1)`
of the sliding-window fallback: the first window size (largest first)
that fits inside the line and does not overlap `used_indices`. -/
def firstWindow (n minW maxW : Nat) (used : List Nat) (i : Nat) : Option Nat :=
  ((List.range (maxW + 1 - minW)).map (fun k => maxW - k)).find?
    (fun ws => decide (i + ws ≤ n) && !overlaps used i (i + ws - 1))

/-- The `while i <= len(line_tokens) - self.min_words` sliding-window
fallback: at each start position the first acceptable window (if any)
emits a chunk and claims its range; `i` advances by one token whether or
not a window was accepted.  The loop runs at most `len(line_tokens) + 1`
times, which the caller supplies as structural fuel. -/
def slidingLoop (tw : List String) (minW maxW : Nat) (lc : LineChunk) :
    Nat → Nat → Nat → List Nat → List FragmentChunk
  | 0, _, _, _ => []
  | fuel + 1, i, fragIdx, used =>
    if i + minW ≤ tw.length then
      match firstWindow tw.length minW maxW used i with
      | some ws =>
        { title := lc.title, act := lc.act, scene := lc.scene, line := lc.line
          text := joinSpace ((tw.drop i).take ws)
          word_index_start := i, word_index_end := i + ws - 1
          word_count := ((tw.drop i).take ws).length
          fragment_position := fragIdx
          total_fragments_in_line := none } ::
          slidingLoop tw minW maxW lc fuel (i + 1) (fragIdx + 1)
            (used ++ rangeSet i (i + ws - 1))
      | none => slidingLoop tw minW maxW lc fuel (i + 1) fragIdx used
    else []

/-- Fragment chunks of one line chunk, before the totals pass:
`max_words` is forced to 6; the subtree strategy runs first and the
sliding-window fallback only when it produced nothing (`fragment_idx ==
0`, in which case `used_indices` is still empty). -/
def fragmentChunksOf (tok : String → List String)
    (subtreesOf : String → List (List String)) (minW : Nat)
    (lc : LineChunk) : List FragmentChunk :=
  let maxW := 6
  let lineText := normalizeQuotes lc.text
  let tw := tok lineText
  let sub := subtreeLoop tw minW maxW lc (subtreesOf lineText) 0 []
  if sub.isEmpty then slidingLoop tw minW maxW lc (tw.length + 1) 0 0 [] else sub

/-- The `(title, act, scene, line)` key of the totals pass. -/
def fragKey (c : FragmentChunk) : String × Option String × Option String × String :=
  (c.title, c.act, c.scene, c.line)

/-- `FragmentChunker.chunk_from_line_chunks`: per-line chunking followed
by the `line_to_count` pass filling `total_fragments_in_line`. -/
def fragment_chunk_from_line_chunks (tok : String → List String)
    (subtreesOf : String → List (List String)) (minW : Nat)
    (lineChunks : List LineChunk) : List FragmentChunk :=
  let raw := lineChunks.flatMap (fragmentChunksOf tok subtreesOf minW)
  raw.map (fun c =>
    let n := raw.countP (fun c' => decide (fragKey c' = fragKey c))
    { c with total_fragments_in_line := some n })

/-! ## Candidates and references (`modules/translator/types.py`)

A candidate's `reference` dictionary is modelled by the fields the engine
reads; `act`/`scene` may be JSON `null` (`Option.none`).  Scores are
floats used only through order and field operations, modelled as `ℚ`. -/

/-- The reference metadata of a chunk / candidate quote. -/
structure Reference where
  title : String
  act : Option String
  scene : Option String
  line : String
  word_index : String
deriving DecidableEq, Repr

/-- `CandidateQuote`. -/
structure CandidateQuote where
  text : String
  reference : Reference
  score : ℚ
deriving DecidableEq, Repr

/-! ## Selector — MMR ranking (`modules/translator/selector.py`) -/

/-- `set(text.lower().split())`: the lower-cased word set of a text. -/
def wordSet (s : String) : Finset String :=
  ((s.toLower.split Char.isWhitespace).filter (fun w => w ≠ "")).toFinset

/-- `compute_similarity`: Jaccard overlap of the two word sets, `0` when
either is empty. -/
def compute_similarity (t1 t2 : String) : ℚ :=
  let w1 := wordSet t1
  let w2 := wordSet t2
  if w1 = ∅ ∨ w2 = ∅ then 0
  else ((w1 ∩ w2).card : ℚ) / ((w1 ∪ w2).card : ℚ)

/-- `relevance = 1.0 / (1.0 + candidate.score)`. -/
def relevance (c : CandidateQuote) : ℚ := 1 / (1 + c.score)

/-- `max_similarity`: running maximum, starting from `0.0`, of the
similarity to each already-selected candidate. -/
def maxSimilarity (c : CandidateQuote) (ranked : List CandidateQuote) : ℚ :=
  ranked.foldl (fun acc sel => max acc (compute_similarity c.text sel.text)) 0

/-- `mmr_score = λ·relevance − (1−λ)·max_similarity`. -/
def mmrScore (lam : ℚ) (ranked : List CandidateQuote) (c : CandidateQuote) : ℚ :=
  lam * relevance c - (1 - lam) * maxSimilarity c ranked

/-- The `max_mmr_score = -inf / if mmr_score > max_mmr_score` scan:
fold over the pool keeping the current best `(index, value)`; the first
element always beats `-inf`, later elements win only strictly. -/
def argmaxFirstAux (f : α → ℚ) : List α → Nat → Option (Nat × ℚ) → Option (Nat × ℚ)
  | [], _, acc => acc
  | x :: xs, i, acc =>
    match acc with
    | none => argmaxFirstAux f xs (i + 1) (some (i, f x))
    | some (bi, bv) =>
      if f x > bv then argmaxFirstAux f xs (i + 1) (some (i, f x))
      else argmaxFirstAux f xs (i + 1) (some (bi, bv))

/-- The index the Python scan selects from the remaining pool. -/
def argmaxFirst (f : α → ℚ) (l : List α) : Option Nat :=
  (argmaxFirstAux f l 0 none).map Prod.fst

/-- The `while remaining_candidates and len(ranked) < len(sorted)` loop.
Each pass appends the scan's pick to `ranked` and removes it from the
pool, so the loop runs exactly `remaining.length` times; `fuel` is
initialised to that. -/
def mmrLoop (lam : ℚ) : Nat → List CandidateQuote → List CandidateQuote → List CandidateQuote
  | 0, ranked, _ => ranked
  | _ + 1, ranked, [] => ranked
  | fuel + 1, ranked, remaining =>
    match argmaxFirst (mmrScore lam ranked) remaining with
    | some i =>
      match remaining.get? i with
      | some c => mmrLoop lam fuel (ranked ++ [c]) (remaining.eraseIdx i)
      | none => ranked
    | none => ranked

/-- `Selector.rank_candidates`: empty pool gives `[]`; candidates are
sorted ascending by score (stably — Python's stable `sorted` is
modelled by the stable `insertionSort`); a pool of at most one is
returned as is; otherwise the most relevant candidate seeds the ranked
list and the MMR loop consumes the rest. -/
def rank_candidates (candidates : List CandidateQuote) (lam : ℚ) : List CandidateQuote :=
  if candidates.isEmpty then []
  else
    let sorted := List.insertionSort (fun a b => a.score ≤ b.score) candidates
    if sorted.length ≤ 1 then sorted
    else
      match sorted with
      | [] => []
      | c :: rest => mmrLoop lam rest.length [c] rest

/-! ## Assembler — `_mini_validate` (`modules/translator/assembler.py`) -/

/-- One entry of the `prompt_data` dict as `_mini_validate` reads it. -/
structure PromptQuote where
  temp_id : String
  text : String
deriving DecidableEq, Repr

/-- `normalize_text`: keep alphanumeric characters, lower-cased.  The
normalized form is kept as a character list, where prefix matching has
clean semantics. -/
def normalizeAlnum (s : String) : List Char :=
  s.toList.filterMap (fun c => if c.isAlphanum then some c.toLower else none)

/-- The `{"temp_id", "original", "normalized"}` record of `all_quotes`. -/
structure NQuote where
  temp_id : String
  original : String
  normalized : List Char
deriving DecidableEq, Repr

/-- Flatten `quote_data` over all levels into `all_quotes`. -/
def collectQuotes (qd : List (String × List PromptQuote)) : List NQuote :=
  qd.flatMap (fun p => p.2.map (fun q => ⟨q.temp_id, q.text, normalizeAlnum q.text⟩))

/-- The inner `for i, quote in enumerate(available_quotes)` search: the
first available quote whose normalized text is a prefix of the remaining
text, together with the available list without it. -/
def findPrefixQuote (remaining : List Char) : List NQuote → Option (NQuote × List NQuote)
  | [] => none
  | q :: qs =>
    if q.normalized.isPrefixOf remaining then some (q, qs)
    else
      match findPrefixQuote remaining qs with
      | some (p, rest) => some (p, q :: rest)
      | none => none

/-- The `for position in range(3)` loop: up to `fuel` quotes are matched
front-anchored; an unmatched non-empty remainder fails (`none`); the
matched quotes are returned in match order with whatever text remains. -/
def matchLoop : Nat → List Char → List NQuote → Option (List NQuote × List Char)
  | 0, remaining, _ => some ([], remaining)
  | fuel + 1, remaining, avail =>
    if remaining.isEmpty then some ([], remaining)
    else
      match findPrefixQuote remaining avail with
      | none => none
      | some (q, rest) =>
        match matchLoop fuel (remaining.drop q.normalized.length) rest with
        | none => none
        | some (qs, rem) => some (q :: qs, rem)

/-- The success payload of `_mini_validate`. -/
structure MiniResult where
  text : String
  temp_ids : List String
deriving DecidableEq, Repr

/-- `Assembler._mini_validate`: normalize the assembled line, sort all
candidate quotes by normalized length descending (stably — Python's
stable sort is modelled by the stable `insertionSort`), match at most
3 of them greedily at the front of the remaining text; succeed iff the
whole normalized line is consumed. -/
def mini_validate (assembled_line : String)
    (qd : List (String × List PromptQuote)) : Option MiniResult :=
  let normalizedAssembled := normalizeAlnum assembled_line
  let allQuotes := List.insertionSort
    (fun a b => b.normalized.length ≤ a.normalized.length) (collectQuotes qd)
  match matchLoop 3 normalizedAssembled allQuotes with
  | none => none
  | some (qs, rem) =>
    if rem.isEmpty then some ⟨assembled_line, qs.map (fun q => q.temp_id)⟩ else none

/-! ## Validator (`modules/validation/validator.py`)

The ground-truth corpus is the parsed `chunks` list of the line-corpus
file; the tokenizer (`_tokenize_line_for_validation`, spaCy or regex
fallback including the quote normalization it performs) is an opaque
`tok : String → List String` returning the word tokens in order — their
enumeration indices are exactly the `(word, index)` pairs of the
source. -/

/-- An entry of the ground-truth `lines.json` corpus. -/
structure GroundTruthEntry where
  title : String
  act : Option String
  scene : Option String
  line : String
  text : String
deriving DecidableEq, Repr

/-- Python `str(x)` for a possibly-`None` field (`str(None) = "None"`). -/
def pyStrOpt : Option String → String
  | none => "None"
  | some s => s

/-- The explicit null-equivalence of `validate_line`: `None`, `""` and
`"null"` are all treated as absent. -/
def isNullish : Option String → Bool
  | none => true
  | some s => s == "" || s == "null"

/-- The act/scene matching rule: both null-ish, or equal after `str`. -/
def actSceneMatch (refV entryV : Option String) : Bool :=
  (isNullish refV && isNullish entryV) || (pyStrOpt entryV == pyStrOpt refV)

/-- The `for entry in self.ground_truth` lookup: first entry matching on
title, act, scene and line. -/
def findGt (gt : List GroundTruthEntry) (ref : Reference) : Option GroundTruthEntry :=
  gt.find? (fun e =>
    e.title == ref.title && actSceneMatch ref.act e.act &&
      actSceneMatch ref.scene e.scene && e.line == ref.line)

/-- `start, end = map(int, word_index.split(","))` guarded by
`"," in word_index`; any parse failure (including more or fewer than two
parts) is caught and skips the reference. -/
def parseWordIndexComma (wi : String) : Option (Int × Int) :=
  if wi.toList.contains ',' then
    match pySplit ',' wi with
    | [a, b] =>
      match pyToInt a, pyToInt b with
      | some x, some y => some (x, y)
      | _, _ => none
    | _ => none
  else none

/-- `[word for word, idx in tokenized_line if start <= idx <= end]`. -/
def extractRange (ws : List String) (s e : Int) : List String :=
  ws.enum.filterMap (fun p =>
    if s ≤ (p.1 : Int) ∧ (p.1 : Int) ≤ e then some p.2 else none)

/-- `re.sub(r'\s+', ' ', ·)`: collapse every whitespace run to one
space; `prevWs` records whether the previous character was whitespace
(i.e. the run already produced its space). -/
def collapseWsAux (prevWs : Bool) : List Char → List Char
  | [] => []
  | c :: rest =>
    if c.isWhitespace then
      if prevWs then collapseWsAux true rest
      else ' ' :: collapseWsAux true rest
    else c :: collapseWsAux false rest

/-- `_normalize_and_clean`: normalize quotes, lower-case, collapse
whitespace, strip. -/
def normalize_and_clean (text : String) : String :=
  String.mk (trimChars (collapseWsAux false
    ((normalizeQuotes text).toList.map Char.toLower)))

/-- `"".join(c for c in frag if c.isalnum())` (on already-normalized,
hence lower-cased, text). -/
def alphaOnly (s : String) : String := String.mk (s.toList.filter Char.isAlphanum)

/-- The per-reference body of the `for ref in references` loop of
`validate_line`: the extracted ground-truth fragment, or `none` when the
reference is skipped (incomplete metadata, no ground-truth entry,
unparseable word index, or an empty extraction); an empty `word_index`
falls back to the whole ground-truth line. -/
def processRef (tok : String → List String) (gt : List GroundTruthEntry)
    (ref : Reference) : Option String :=
  if ref.title = "" ∨ ref.line = "" then none
  else
    match findGt gt ref with
    | none => none
    | some e =>
      if ref.word_index ≠ "" then
        match parseWordIndexComma ref.word_index with
        | none => none
        | some (s, en) =>
          let fragmentWords := extractRange (tok e.text) s en
          if fragmentWords.isEmpty then none else some (joinSpace fragmentWords)
      else some e.text

/-- `Validator.validate_line`: collect the resolvable fragments (zero
resolved fragments fail); compare the normalized assembled text with the
space-joined normalized fragments, falling back to alphanumeric-only
equality against their direct concatenation. -/
def validate_line (tok : String → List String) (gt : List GroundTruthEntry)
    (assembled_text : String) (references : List Reference) : Bool :=
  let extracted := references.filterMap (processRef tok gt)
  if extracted.isEmpty then false
  else
    let normalizedFragments := extracted.map normalize_and_clean
    let normalizedAssembled := normalize_and_clean assembled_text
    let alphaFragments := normalizedFragments.map alphaOnly
    let alphaAssembled := alphaOnly normalizedAssembled
    let expectedText := joinSpace normalizedFragments
    let expectedAlpha := String.join alphaFragments
    (normalizedAssembled == expectedText) || (alphaAssembled == expectedAlpha)

/-! ## TranslationManager (`modules/translator/translation_manager.py`)

`translate_line` is embedded in a monad `TM` recording, besides the
possibly-raising result, the observable events of the run: each call of
`Validator.validate_line` (with its verdict) and each
`UsedMap.mark_used` (with the reference key and word indices).  The
collaborators — RAG search, `Selector.prepare_prompt_structure`,
`Assembler.assemble_line`, `Validator.validate_line` — are opaque
functions that may raise (`Except.error`), exactly the failure modes the
`try/except Exception` blocks of the source guard against.
`UsedMap.mark_used`/`save` never raise (their bodies catch their own
errors), so marking is a pure event emission. -/

/-- Observable events of one `translate_line` execution, in order. -/
inductive Event where
  | validated (text : String) (ok : Bool)
  | marked (reference_key : String) (word_indices : List Int)
deriving DecidableEq, Repr

/-- The execution monad: result-or-exception together with the events
emitted so far (events survive a raise, as side effects do in Python). -/
def TM (α : Type) : Type := Except Unit α × List Event

/-- `return`: a value and no events. -/
def tmPure (a : α) : TM α := (Except.ok a, [])

/-- Sequencing: an exception short-circuits, events accumulate. -/
def tmBind (m : TM α) (f : α → TM β) : TM β :=
  match m with
  | (Except.error e, ev) => (Except.error e, ev)
  | (Except.ok a, ev) =>
    match f a with
    | (r, ev2) => (r, ev ++ ev2)

instance instMonadTM : Monad TM where
  pure := tmPure
  bind := tmBind

/-- `raise` (the distinctions between exception classes never matter:
every handler in scope catches bare `Exception`). -/
def tmThrow : TM α := (Except.error (), [])

/-- A `try: … except Exception: …` block. -/
def tmTry (m : TM α) (h : Unit → TM α) : TM α :=
  match m with
  | (Except.error e, ev) =>
    match h e with
    | (r, ev2) => (r, ev ++ ev2)
  | ok => ok

/-- Record an event. -/
def emit (e : Event) : TM Unit := (Except.ok (), [e])

/-- Invoke an opaque collaborator. -/
def call (x : Except Unit α) : TM α := (x, [])

/-- The grouped results of a RAG search (`retrieve_all`/`hybrid_search`):
the `"line"`, `"phrases"` and `"fragments"` lists. -/
structure SelectorResults where
  line : List CandidateQuote
  phrases : List CandidateQuote
  fragments : List CandidateQuote
deriving DecidableEq, Repr

/-- The prompt structure `prepare_prompt_structure` returns: a dict from
level name to its option list.  Only the counts of the entries are read
by `translate_line` itself, so entries are `Unit`. -/
abbrev PromptStructure : Type := List (String × List Unit)

/-- `chunk_map`: `temp_id → CandidateQuote`. -/
abbrev TempMap : Type := List (String × CandidateQuote)

/-- The dict `Assembler.assemble_line` returns on success (after the
`temp_ids`-as-dict normalization of STEP 3). -/
structure AsmResult where
  text : String
  temp_ids : List String
deriving DecidableEq, Repr

/-- The opaque collaborators of `translate_line`, each allowed to
raise. -/
structure Collab where
  hybridSearch : Nat → Except Unit SelectorResults
  retrieveAll : Nat → Except Unit SelectorResults
  prepare : Option SelectorResults → Except Unit (PromptStructure × TempMap)
  assemble : PromptStructure → Nat → Except Unit (Option AsmResult)
  validate : String → List Reference → Except Unit Bool

/-- The result dict of a translated line.  The success dict carries
`search_type` and no `is_failsafe` key; the failsafe dict the converse —
modelled by one record with an optional `search_type` and an
`is_failsafe` flag. -/
structure TranslationResult where
  text : String
  temp_ids : List String
  references : List Reference
  original_modern_line : String
  search_type : Option String
  is_failsafe : Bool
deriving DecidableEq, Repr

/-- The candidate count check after the initial hybrid search. -/
def totalCandidates (r : SelectorResults) : Nat :=
  r.line.length + r.phrases.length + r.fragments.length

/-- `sum(len(options) for options in prompt_structure.values())`. -/
def totalOptions (ps : PromptStructure) : Nat :=
  (ps.map (fun p => p.2.length)).sum

/-- `act if act is not None else 'NULL'`. -/
def pyOrNull : Option String → String
  | none => "NULL"
  | some s => s

/-- The reference key used when marking:
`f"{title}|{act or 'NULL'}|{scene or 'NULL'}|{line}"`. -/
def mkRefKey (ref : Reference) : String :=
  ref.title ++ "|" ++ pyOrNull ref.act ++ "|" ++ pyOrNull ref.scene ++ "|" ++ ref.line

/-- `list(range(start, end + 1))`. -/
def intRange (x y : Int) : List Int :=
  (List.range (y + 1 - x).toNat).map (fun k => x + k)

/-- The `word_index` parsing of `_create_single_quote_result`: a
comma-separated pair or a single integer; any failure is caught and
skips the marking. -/
def parseWordIndexFailsafe (wi : String) : Option (List Int) :=
  if wi = "" then none
  else if wi.toList.contains ',' then
    match pySplit ',' wi with
    | [a, b] =>
      match pyToInt a, pyToInt b with
      | some x, some y => some (intRange x y)
      | _, _ => none
    | _ => none
  else
    match pyToInt wi with
    | some i => some [i]
    | none => none

/-- The `word_index` parsing of STEP 6 of `translate_line`: a comma
pair, else a dash pair, else a single integer; failures are caught and
skip the reference. -/
def parseWordIndexStep6 (wi : String) : Option (List Int) :=
  if wi = "" then none
  else if wi.toList.contains ',' then
    match pySplit ',' wi with
    | [a, b] =>
      match pyToInt a, pyToInt b with
      | some x, some y => some (intRange x y)
      | _, _ => none
    | _ => none
  else if wi.toList.contains '-' then
    match pySplit '-' wi with
    | [a, b] =>
      match pyToInt a, pyToInt b with
      | some x, some y => some (intRange x y)
      | _, _ => none
    | _ => none
  else
    match pyToInt wi with
    | some i => some [i]
    | none => none

/-- `TranslationManager._create_single_quote_result`: mark the quote's
reference used (when its `word_index` parses; `mark_used` and `save`
never raise) and return the failsafe result dict. -/
def create_single_quote_result (quote : CandidateQuote) (modern_line : String) :
    TM TranslationResult := do
  let ref := quote.reference
  match parseWordIndexFailsafe ref.word_index with
  | some idxs => emit (Event.marked (mkRefKey ref) idxs)
  | none => pure ()
  pure { text := quote.text, temp_ids := ["failsafe_1"], references := [ref],
         original_modern_line := modern_line, search_type := none,
         is_failsafe := true }

/-- The `try: fallback_results = self.rag.retrieve_all(modern_line,
top_k=1) …` failsafe retrieval shared by the inner handler (lines
338–351) and the emergency handler (lines 361–372): a fresh top-1 line
search, its head turned into a failsafe result, any failure or empty
result giving `none`. -/
def freshFailsafe (C : Collab) (modern : String) : TM (Option TranslationResult) :=
  tmTry
    (do
      let fb ← call (C.retrieveAll 1)
      match fb.line with
      | q :: _ => do
        let res ← create_single_quote_result q modern
        pure (some res)
      | [] => pure none)
    (fun _ => pure none)

/-- The initial hybrid search block (lines 100–141), entered when hybrid
search is requested with empty `selector_results`: either an early
return (`Sum.inl`) with a failsafe result or `none`, or the retrieved
results to continue with (`Sum.inr`). -/
def hybridInit (C : Collab) (modern : String) :
    TM (Sum (Option TranslationResult) (Option SelectorResults)) :=
  tmTry
    (do
      let r ← call (C.hybridSearch 15)
      if totalCandidates r = 0 then tmThrow
      else pure (Sum.inr (some r)))
    (fun _ =>
      tmTry
        (do
          let fb ← call (C.retrieveAll 1)
          match fb.line with
          | q :: _ => do
            let res ← create_single_quote_result q modern
            pure (Sum.inl (some res))
          | [] => pure (Sum.inl none))
        (fun _ => pure (Sum.inl none)))

/-- STEP 6: mark each reference whose `word_index` parses. -/
def markRefs : List Reference → TM Unit
  | [] => pure ()
  | ref :: rest => do
    match parseWordIndexStep6 ref.word_index with
    | some idxs => emit (Event.marked (mkRefKey ref) idxs)
    | none => pure ()
    markRefs rest

/-- STEPs 2–7 of `translate_line` (from `Assembler.assemble_line` on):
assembly — a standard-search run escalating to the hybrid re-entry via
`recurse` when assembly returns nothing —, result extraction, temp-id
validation, line validation, marking and the success dict. -/
def assembleStage (C : Collab) (modern : String) (hybrid : Bool)
    (ps : PromptStructure) (tmap : TempMap)
    (recurse : TM (Option TranslationResult)) : TM (Option TranslationResult) := do
  let maxRetries := if hybrid then 0 else 1
  let asm? ← call (C.assemble ps maxRetries)
  match asm? with
  | none => if hybrid then tmThrow else recurse
  | some a =>
    let text := pyStrip a.text
    let tids := a.temp_ids
    if text = "" ∨ tids = [] then tmThrow
    else
      let validKeys := tmap.map Prod.fst
      if tids.any (fun t => !(validKeys.contains t)) then tmThrow
      else do
        let usedCands := tids.filterMap
          (fun t => (tmap.find? (fun p => p.1 == t)).map Prod.snd)
        let refs := usedCands.map (fun c => c.reference)
        let v ← call (C.validate text refs)
        emit (Event.validated text v)
        if !v then tmThrow
        else do
          markRefs refs
          pure (some { text := text, temp_ids := tids, references := refs,
                       original_modern_line := modern,
                       search_type := some (if hybrid then "HYBRID" else "STANDARD"),
                       is_failsafe := false })

/-- STEP 1 of `translate_line` (the `try:` block at line 147): prompt
preparation with the metadata entry and the extended-search retry,
continuing into `assembleStage`. -/
def innerBody (C : Collab) (modern : String) (hybrid : Bool)
    (cur : Option SelectorResults) (recurse : TM (Option TranslationResult)) :
    TM (Option TranslationResult) := do
  let r0 ← call (C.prepare cur)
  let ps0 := r0.1 ++ [("metadata", [()])]
  let tm0 := r0.2
  let r1 ←
    if totalOptions ps0 < 3 then do
      let r1 ←
        tmTry
          (do
            let ext ← call (if hybrid then C.hybridSearch 25 else C.retrieveAll 20)
            let r2 ← call (C.prepare (some ext))
            pure (r2.1, r2.2, totalOptions r2.1))
          (fun _ => pure (ps0, tm0, 0))
      if r1.2.2 < 1 then tmThrow else pure (r1.1, r1.2.1)
    else pure (ps0, tm0)
  assembleStage C modern hybrid r1.1 r1.2 recurse

/-- The `except Exception as prompt_error:` handler at line 325: the
head of the current `selector_results["line"]` as a failsafe, else a
fresh top-1 retrieval, else `None`. -/
def innerHandler (C : Collab) (modern : String) (cur : Option SelectorResults) :
    TM (Option TranslationResult) :=
  match cur with
  | some r =>
    match r.line with
    | q :: _ => do
      let res ← create_single_quote_result q modern
      pure (some res)
    | [] => freshFailsafe C modern
  | none => freshFailsafe C modern

/-- The body of `translate_line` for a started session: the outer
`try:` at line 98 around the initial-hybrid-search block and the inner
`try:`; the outer `except` at line 353 runs the emergency failsafe. -/
def mainFlow (C : Collab) (modern : String) (hybrid : Bool)
    (selRes : Option SelectorResults) (recurse : TM (Option TranslationResult)) :
    TM (Option TranslationResult) :=
  tmTry
    (do
      let step ←
        if hybrid && selRes.isNone then hybridInit C modern
        else pure (Sum.inr selRes)
      match step with
      | Sum.inl res => pure res
      | Sum.inr cur =>
        tmTry (innerBody C modern hybrid cur recurse)
          (fun _ => innerHandler C modern cur))
    (fun _ => freshFailsafe C modern)

/-- `TranslationManager.translate_line` for a started session,
dispatched on `use_hybrid_search`: the standard-search run re-enters the
hybrid run (`translate_line(modern_line, {}, use_hybrid_search=True)`)
when assembly fails; the hybrid run never recurses (its `recurse` slot
is a dead `raise`). -/
def translate_line_go (C : Collab) (modern : String) :
    Bool → Option SelectorResults → TM (Option TranslationResult)
  | true, selRes => mainFlow C modern true selRes tmThrow
  | false, selRes =>
    mainFlow C modern false selRes (mainFlow C modern true none tmThrow)

/-- `TranslationManager.translate_line` including the
`RuntimeError("Translation session not started…")` guard, which is the
only raise outside the outer `try:`. -/
def translate_line (C : Collab) (sessionStarted : Bool) (modern : String)
    (selRes : Option SelectorResults) (hybrid : Bool) :
    TM (Option TranslationResult) :=
  if sessionStarted then translate_line_go C modern hybrid selRes else tmThrow

/-! ## Trace predicates for the temporal claims about `translate_line` -/

/-- Does the run's returned value justify a mark without validation?
Only a returned failsafe result does, and only for the single mark of
its own (sole) reference. -/
def failsafeLinked (r : Option TranslationResult) (k : String) (idxs : List Int) : Bool :=
  match r with
  | some res =>
    res.is_failsafe &&
      (match res.references with
       | [ref] => (mkRefKey ref == k) && (parseWordIndexFailsafe ref.word_index == some idxs)
       | _ => false)
  | none => false

/-- Is `t` the text of a returned, non-failsafe result? -/
def resultTextIs (r : Option TranslationResult) (t : String) : Bool :=
  match r with
  | some res => !res.is_failsafe && res.text == t
  | none => false

/-- Scan a trace left to right; `seen` records whether a successful
validation of the returned non-failsafe result's text has occurred.
Every mark must be covered by such a validation or by the returned
failsafe result. -/
def marksJustifiedAux (r : Option TranslationResult) (seen : Bool) : List Event → Bool
  | [] => true
  | Event.validated t ok :: rest =>
    marksJustifiedAux r (seen || (ok && resultTextIs r t)) rest
  | Event.marked k idxs :: rest =>
    (seen || failsafeLinked r k idxs) && marksJustifiedAux r seen rest

/-- Every `marked` event of the trace is preceded by a successful
validation of the returned result's text, or is the returned failsafe
result's own mark. -/
def marksJustified (r : Option TranslationResult) (ev : List Event) : Bool :=
  marksJustifiedAux r false ev

/-- The claim as stated: every `marked` event is preceded by a
`validated _ true` event (no failsafe exemption). -/
def marksValidatedAux (seen : Bool) : List Event → Bool
  | [] => true
  | Event.validated _ ok :: rest => marksValidatedAux (seen || ok) rest
  | Event.marked _ _ :: rest => seen && marksValidatedAux seen rest

/-- See `marksValidatedAux`. -/
def marksValidated (ev : List Event) : Bool := marksValidatedAux false ev

/-- A trace that contains no `marked` event at all. -/
def noMarks (ev : List Event) : Bool :=
  ev.all (fun e => match e with | Event.marked _ _ => false | _ => true)

/-- A returned non-failsafe result was validated within the run. -/
def nonFailsafeHasValidation (r : Option TranslationResult) (ev : List Event) : Bool :=
  match r with
  | some res => res.is_failsafe || ev.contains (Event.validated res.text true)
  | none => true

/-- The shape every completed `translate_line` run has: no escaping
exception, every mark justified, and a non-failsafe result validated. -/
def GoodRun (m : TM (Option TranslationResult)) : Prop :=
  ∃ r ev, m = (Except.ok r, ev) ∧ marksJustified r ev = true ∧
    nonFailsafeHasValidation r ev = true

/-! ## Index-range predicates for the chunking claims -/

/-- Two inclusive word-index ranges share an index. -/
def sharesIndex (s1 e1 s2 e2 : Nat) : Prop :=
  ∃ i, i ∈ rangeSet s1 e1 ∧ i ∈ rangeSet s2 e2

/-- Disjointness of two phrase chunks' ranges. -/
def phraseDisjoint (c1 c2 : PhraseChunk) : Prop :=
  ¬ sharesIndex c1.word_index_start c1.word_index_end c2.word_index_start c2.word_index_end

/-- Disjointness of two fragment chunks' ranges. -/
def fragDisjoint (c1 c2 : FragmentChunk) : Prop :=
  ¬ sharesIndex c1.word_index_start c1.word_index_end c2.word_index_start c2.word_index_end

/-- The `(title, act, scene, line)` parent-line key of a phrase chunk. -/
def phraseKey (c : PhraseChunk) : String × Option String × Option String × String :=
  (c.title, c.act, c.scene, c.line)

/-! # Theorems -/

/-! ## C10 — UsedMap before `load` -/

/-- C10: with no loaded session (`active_translation_id = None`),
`mark_used` leaves the whole `UsedMap` state unchanged and raises
nothing, and `was_used` returns `False` and raises nothing; the
used-once guarantee is silently void before `load()`. -/
theorem used_map_without_session_is_inert (m : UsedMapState) (k : String)
    (r : ContextRange) (h : m.active_translation_id = none) :
    UsedMap.mark_used k r m = m ∧ UsedMap.was_used k r m = false := by
  unfold UsedMap.mark_used UsedMap.was_used
  rw [h]
  exact ⟨rfl, rfl⟩

/-- Witness for C10 at a concrete unloaded state. -/
theorem used_map_without_session_is_inert_witness :
    UsedMap.mark_used "Hamlet|3|1|64" (ContextRange.ints [0, 1])
        ⟨none, fun _ _ => [], fun _ => none⟩ =
      ⟨none, fun _ _ => [], fun _ => none⟩ ∧
    UsedMap.was_used "Hamlet|3|1|64" (ContextRange.ints [0, 1])
        ⟨none, fun _ _ => [], fun _ => none⟩ = false :=
  used_map_without_session_is_inert _ _ _ rfl

/-! ## C5 — the used-once guarantee -/

/-- C5: after `mark_used(k, r)` in a loaded session, `was_used(k, r)`
returns `True` in the same session; loading a fresh session under a
different translation id whose ledger file does not exist initialises an
empty map (without raising — `load` is total) and `was_used(k, r)` then
returns `False`. -/
theorem used_once_guarantee (m : UsedMapState) (k : String) (r : ContextRange)
    (tid1 tid2 : String) (_hne : tid2 ≠ tid1) (hfile : m.files tid2 = none) :
    UsedMap.was_used k r (UsedMap.mark_used k r (UsedMap.load tid1 m)) = true ∧
    UsedMap.was_used k r
      (UsedMap.load tid2 (UsedMap.mark_used k r (UsedMap.load tid1 m))) = false := by
  constructor
  · simp [UsedMap.load, UsedMap.mark_used, UsedMap.was_used]
  · simp [UsedMap.load, UsedMap.mark_used, UsedMap.was_used, hfile]

/-- Witness for C5 at a concrete state, key, range and session ids. -/
theorem used_once_guarantee_witness :
    UsedMap.was_used "Hamlet|3|1|64" (ContextRange.ints [0, 1])
      (UsedMap.mark_used "Hamlet|3|1|64" (ContextRange.ints [0, 1])
        (UsedMap.load "t1" ⟨none, fun _ _ => [], fun _ => none⟩)) = true ∧
    UsedMap.was_used "Hamlet|3|1|64" (ContextRange.ints [0, 1])
      (UsedMap.load "t2"
        (UsedMap.mark_used "Hamlet|3|1|64" (ContextRange.ints [0, 1])
          (UsedMap.load "t1" ⟨none, fun _ _ => [], fun _ => none⟩))) = false :=
  used_once_guarantee _ _ _ _ _ (by decide) rfl

/-! ## C4 — `_mini_validate` -/

/-- A found prefix quote is a prefix of the remaining text, and the
available pool is the found quote plus the returned rest. -/
theorem findPrefixQuote_spec (rem : List Char) :
    ∀ (avail : List NQuote) (q : NQuote) (rest : List NQuote),
      findPrefixQuote rem avail = some (q, rest) →
      q.normalized.isPrefixOf rem = true ∧ List.Perm avail (q :: rest) := by
  intro avail
  induction avail with
  | nil => intro q rest h; simp [findPrefixQuote] at h
  | cons x xs ih =>
    intro q rest h
    unfold findPrefixQuote at h
    by_cases hx : x.normalized.isPrefixOf rem = true
    · rw [if_pos hx] at h
      obtain ⟨rfl, rfl⟩ := Prod.mk.injEq .. ▸ Option.some.injEq .. ▸ h
      exact ⟨hx, List.Perm.refl _⟩
    · rw [if_neg hx] at h
      cases hrec : findPrefixQuote rem xs with
      | none => rw [hrec] at h; exact absurd h (by simp)
      | some pr =>
        obtain ⟨p, r'⟩ := pr
        rw [hrec] at h
        obtain ⟨rfl, rfl⟩ := Prod.mk.injEq .. ▸ Option.some.injEq .. ▸ h
        obtain ⟨hpre, hperm⟩ := ih p r' hrec
        refine ⟨hpre, ?_⟩
        exact (hperm.cons x).trans (List.Perm.swap p x r')

/-- `l₁ <+~ l₂ → a :: l₁ <+~ a :: l₂`. -/
theorem subperm_cons_both {α : Type} {a : α} {l₁ l₂ : List α}
    (h : l₁.Subperm l₂) : (a :: l₁).Subperm (a :: l₂) := by
  obtain ⟨l, p, s⟩ := h
  exact ⟨a :: l, p.cons a, s.cons₂ a⟩

/-- Invariant of the matching loop: at most `fuel` quotes are matched,
their normalized texts concatenated in order followed by the leftover
text reconstitute the input, and the matched quotes are drawn without
repetition from the available pool. -/
theorem matchLoop_spec :
    ∀ (fuel : Nat) (rem : List Char) (avail : List NQuote)
      (qs : List NQuote) (rem' : List Char),
      matchLoop fuel rem avail = some (qs, rem') →
      qs.length ≤ fuel ∧ (qs.map NQuote.normalized).flatten ++ rem' = rem ∧
        qs.Subperm avail := by
  intro fuel
  induction fuel with
  | zero =>
    intro rem avail qs rem' h
    simp only [matchLoop, Option.some.injEq, Prod.mk.injEq] at h
    obtain ⟨rfl, rfl⟩ := h
    simp
  | succ f ih =>
    intro rem avail qs rem' h
    unfold matchLoop at h
    by_cases hrem : rem.isEmpty
    · rw [if_pos hrem] at h
      simp only [Option.some.injEq, Prod.mk.injEq] at h
      obtain ⟨rfl, rfl⟩ := h
      simp
    · rw [if_neg hrem] at h
      cases hfp : findPrefixQuote rem avail with
      | none => rw [hfp] at h; exact absurd h (by simp)
      | some pr =>
        obtain ⟨q, rest⟩ := pr
        simp only [hfp] at h
        cases hml : matchLoop f (rem.drop q.normalized.length) rest with
        | none => simp only [hml] at h; exact absurd h (by simp)
        | some pr' =>
          obtain ⟨qs', rem''⟩ := pr'
          simp only [hml] at h
          simp only [Option.some.injEq, Prod.mk.injEq] at h
          obtain ⟨rfl, rfl⟩ := h
          obtain ⟨hlen, hflat, hsub⟩ := ih _ _ _ _ hml
          obtain ⟨hpre, hperm⟩ := findPrefixQuote_spec rem avail q rest hfp
          rw [ List.isPrefixOf_iff_prefix] at hpre
          obtain ⟨tail, htail⟩ := hpre
          refine ⟨by simpa using Nat.succ_le_succ hlen, ?_, ?_⟩
          · have hdrop : rem.drop q.normalized.length = tail := by
              rw [← htail]; simp
            rw [hdrop] at hflat
            simp only [List.map_cons, List.flatten_cons, List.append_assoc, hflat]
            exact htail
          · exact (subperm_cons_both hsub).trans (hperm.symm.subperm)

/-- Every collected quote's `normalized` field is the alnum-lowercase
normalization of its own text. -/
theorem collectQuotes_normalized (qd : List (String × List PromptQuote))
    (q : NQuote) (h : q ∈ collectQuotes qd) :
    q.normalized = normalizeAlnum q.original := by
  simp only [collectQuotes, List.mem_flatMap, List.mem_map] at h
  obtain ⟨p, _, pq, _, rfl⟩ := h
  rfl

/-- C4: whenever `_mini_validate` succeeds, the returned `temp_ids` list
has at most 3 elements, identifies distinct listed candidates (a
sub-multiset of the collected quotes — no candidate matched twice), and
the concatenation, in the returned order, of those candidates'
alphanumeric-only lower-cased texts equals the alphanumeric-only
lower-cased assembled line.  The front-anchored longest-first greedy
mechanism is the definition itself (`matchLoop` over the
length-descending `mergeSort` of the candidates). -/
theorem mini_validate_sound (assembled : String)
    (qd : List (String × List PromptQuote)) (r : MiniResult)
    (h : mini_validate assembled qd = some r) :
    r.temp_ids.length ≤ 3 ∧
    ∃ qs : List NQuote,
      r.temp_ids = qs.map NQuote.temp_id ∧
      qs.Subperm (collectQuotes qd) ∧
      (∀ q ∈ qs, q.normalized = normalizeAlnum q.original) ∧
      (qs.map NQuote.normalized).flatten = normalizeAlnum assembled := by
  simp only [mini_validate] at h
  cases hml : matchLoop 3 (normalizeAlnum assembled)
      (List.insertionSort
        (fun a b => b.normalized.length ≤ a.normalized.length)
        (collectQuotes qd)) with
  | none => simp only [hml] at h; exact absurd h (by simp)
  | some pr =>
    obtain ⟨qs, rem⟩ := pr
    simp only [hml] at h
    by_cases hrem : rem.isEmpty
    · rw [if_pos hrem] at h
      simp only [Option.some.injEq] at h
      obtain ⟨hlen, hflat, hsub⟩ := matchLoop_spec 3 _ _ _ _ hml
      have hsub' : qs.Subperm (collectQuotes qd) :=
        hsub.trans (List.perm_insertionSort _ (collectQuotes qd)).subperm
      have hremnil : rem = [] := List.isEmpty_iff.mp hrem
      rw [hremnil, List.append_nil] at hflat
      refine ⟨?_, qs, ?_, hsub', ?_, hflat⟩
      · rw [← h]; simpa using hlen
      · rw [← h]
      · intro q hq
        exact collectQuotes_normalized qd q (hsub'.subset hq)
    · rw [if_neg hrem] at h; exact absurd h (by simp)

/-- Witness for C4 at a concrete successful mini-validation. -/
theorem mini_validate_sound_witness :
    (MiniResult.mk "To be, or not!" ["line_1", "line_2"]).temp_ids.length ≤ 3 ∧
    ∃ qs : List NQuote,
      (MiniResult.mk "To be, or not!" ["line_1", "line_2"]).temp_ids =
        qs.map NQuote.temp_id ∧
      qs.Subperm (collectQuotes
        [("line", [⟨"line_1", "to be"⟩, ⟨"line_2", "or not"⟩])]) ∧
      (∀ q ∈ qs, q.normalized = normalizeAlnum q.original) ∧
      (qs.map NQuote.normalized).flatten = normalizeAlnum "To be, or not!" :=
  mini_validate_sound "To be, or not!"
    [("line", [⟨"line_1", "to be"⟩, ⟨"line_2", "or not"⟩])]
    (MiniResult.mk "To be, or not!" ["line_1", "line_2"]) (by decide)

/-! ## C6 — MMR ranking determinism and tie-breaking -/

/-- Invariant of the strict-improvement scan `argmaxFirstAux` started
from an accumulator `(bi, bv)`: the final best is either the unchanged
accumulator, dominating every element, or the first element that
strictly beats both the accumulator and everything before it, and is
never strictly beaten afterwards. -/
theorem argmaxFirstAux_spec {α : Type} (f : α → ℚ) :
    ∀ (xs : List α) (i bi : Nat) (bv : ℚ) (ri : Nat) (rv : ℚ),
      argmaxFirstAux f xs i (some (bi, bv)) = some (ri, rv) →
      (ri = bi ∧ rv = bv ∧ ∀ (k : Nat) (x : α), xs[k]? = some x → f x ≤ bv) ∨
      (∃ (k : Nat) (x : α), xs[k]? = some x ∧ ri = i + k ∧ rv = f x ∧ bv < f x ∧
        (∀ (m : Nat) (y : α), m < k → xs[m]? = some y → f y < f x) ∧
        (∀ (m : Nat) (y : α), xs[m]? = some y → f y ≤ f x)) := by
  intro xs
  induction xs with
  | nil =>
    intro i bi bv ri rv h
    simp only [argmaxFirstAux, Option.some.injEq, Prod.mk.injEq] at h
    exact Or.inl ⟨h.1.symm, h.2.symm, fun k x hx => by simp at hx⟩
  | cons x xs ih =>
    intro i bi bv ri rv h
    unfold argmaxFirstAux at h
    dsimp only at h
    by_cases hgt : f x > bv
    · rw [if_pos hgt] at h
      rcases ih (i + 1) i (f x) ri rv h with ⟨hri, hrv, hbound⟩ |
        ⟨k, y, hy, hri, hrv, hlt, hmin, hmax⟩
      · refine Or.inr ⟨0, x, by simp, by omega, hrv, hgt, ?_, ?_⟩
        · intro m y hm _; exact absurd hm (by omega)
        · intro m z hmz
          cases m with
          | zero => simp at hmz; subst hmz; exact le_rfl
          | succ m' =>
            simp only [List.getElem?_cons_succ] at hmz
            exact hbound m' z hmz
      · refine Or.inr ⟨k + 1, y, by simpa using hy, by omega, hrv,
          hgt.trans hlt, ?_, ?_⟩
        · intro m z hm hmz
          cases m with
          | zero => simp at hmz; subst hmz; exact hlt
          | succ m' =>
            simp only [List.getElem?_cons_succ] at hmz
            exact hmin m' z (by omega) hmz
        · intro m z hmz
          cases m with
          | zero => simp at hmz; subst hmz; exact le_of_lt hlt
          | succ m' =>
            simp only [List.getElem?_cons_succ] at hmz
            exact hmax m' z hmz
    · rw [if_neg hgt] at h
      rcases ih (i + 1) bi bv ri rv h with ⟨hri, hrv, hbound⟩ |
        ⟨k, y, hy, hri, hrv, hlt, hmin, hmax⟩
      · refine Or.inl ⟨hri, hrv, ?_⟩
        intro m z hmz
        cases m with
        | zero => simp at hmz; subst hmz; exact le_of_not_lt hgt
        | succ m' =>
          simp only [List.getElem?_cons_succ] at hmz
          exact hbound m' z hmz
      · refine Or.inr ⟨k + 1, y, by simpa using hy, by omega, hrv, hlt, ?_, ?_⟩
        · intro m z hm hmz
          cases m with
          | zero =>
            simp at hmz; subst hmz
            exact lt_of_le_of_lt (le_of_not_lt hgt) hlt
          | succ m' =>
            simp only [List.getElem?_cons_succ] at hmz
            exact hmin m' z (by omega) hmz
        · intro m z hmz
          cases m with
          | zero =>
            simp at hmz; subst hmz
            exact le_of_lt (lt_of_le_of_lt (le_of_not_lt hgt) hlt)
          | succ m' =>
            simp only [List.getElem?_cons_succ] at hmz
            exact hmax m' z hmz

/-- The selected pool index is the first index attaining the maximum of
`f`: everything before it scores strictly less, nothing scores more. -/
theorem argmaxFirst_spec {α : Type} (f : α → ℚ) (l : List α) (i : Nat)
    (h : argmaxFirst f l = some i) :
    ∃ ci, l[i]? = some ci ∧
      (∀ (j : Nat) (cj : α), j < i → l[j]? = some cj → f cj < f ci) ∧
      (∀ (j : Nat) (cj : α), l[j]? = some cj → f cj ≤ f ci) := by
  cases l with
  | nil => simp [argmaxFirst, argmaxFirstAux] at h
  | cons x xs =>
    unfold argmaxFirst argmaxFirstAux at h
    dsimp only at h
    cases hres : argmaxFirstAux f xs 1 (some (0, f x)) with
    | none => rw [hres] at h; simp at h
    | some pr =>
      obtain ⟨ri, rv⟩ := pr
      rw [hres] at h
      simp at h
      subst h
      rcases argmaxFirstAux_spec f xs 1 0 (f x) ri rv hres with
        ⟨hri, hrv, hbound⟩ | ⟨k, y, hy, hri, hrv, hlt, hmin, hmax⟩
      · subst hri
        refine ⟨x, by simp, ?_, ?_⟩
        · intro j cj hj _; exact absurd hj (by omega)
        · intro j cj hj
          cases j with
          | zero => simp at hj; subst hj; exact le_rfl
          | succ j' =>
            simp only [List.getElem?_cons_succ] at hj
            exact hbound j' cj hj
      · subst hri
        refine ⟨y, by rw [Nat.add_comm]; simpa using hy, ?_, ?_⟩
        · intro j cj hj hjc
          cases j with
          | zero => simp at hjc; subst hjc; exact hlt
          | succ j' =>
            simp only [List.getElem?_cons_succ] at hjc
            exact hmin j' cj (by omega) hjc
        · intro j cj hjc
          cases j with
          | zero => simp at hjc; subst hjc; exact le_of_lt hlt
          | succ j' =>
            simp only [List.getElem?_cons_succ] at hjc
            exact hmax j' cj hjc

/-- C6: `rank_candidates` is deterministic — identical candidate lists
(same texts and scores in the same order) and the same `λ` produce the
identical order, the embedding being a pure function with a stable sort
and no randomization — and every MMR selection step picks, from the
score-sorted pool, the first index attaining the maximal MMR score, so
ties are broken by pool order. -/
theorem rank_candidates_deterministic :
    (∀ (cs1 cs2 : List CandidateQuote) (lam1 lam2 : ℚ),
      cs1 = cs2 → lam1 = lam2 →
      rank_candidates cs1 lam1 = rank_candidates cs2 lam2) ∧
    (∀ (lam : ℚ) (ranked pool : List CandidateQuote) (i : Nat),
      argmaxFirst (mmrScore lam ranked) pool = some i →
      ∃ ci, pool[i]? = some ci ∧
        (∀ (j : Nat) cj, j < i → pool[j]? = some cj →
          mmrScore lam ranked cj < mmrScore lam ranked ci) ∧
        (∀ (j : Nat) cj, pool[j]? = some cj →
          mmrScore lam ranked cj ≤ mmrScore lam ranked ci)) := by
  constructor
  · intro cs1 cs2 lam1 lam2 h1 h2; rw [h1, h2]
  · intro lam ranked pool i h
    exact argmaxFirst_spec (mmrScore lam ranked) pool i h

/-- Witness for C6: a two-run equality at a concrete pool, and a
concrete tied pool (two equal-score, equal-text candidates) where the
scan picks index 0, the earlier pool position. -/
theorem rank_candidates_deterministic_witness :
    (rank_candidates [⟨"to be", ⟨"T", none, none, "1", "0,1"⟩, 1⟩,
        ⟨"or not", ⟨"T", none, none, "1", "2,3"⟩, 2⟩] (6/10) =
      rank_candidates [⟨"to be", ⟨"T", none, none, "1", "0,1"⟩, 1⟩,
        ⟨"or not", ⟨"T", none, none, "1", "2,3"⟩, 2⟩] (6/10)) ∧
    (∃ ci, ([⟨"to be", ⟨"T", none, none, "1", "0,1"⟩, 1⟩,
        ⟨"to be", ⟨"T", none, none, "1", "2,3"⟩, 1⟩] :
          List CandidateQuote)[(0 : Nat)]? = some ci ∧
      (∀ (j : Nat) cj, j < 0 →
        ([⟨"to be", ⟨"T", none, none, "1", "0,1"⟩, 1⟩,
          ⟨"to be", ⟨"T", none, none, "1", "2,3"⟩, 1⟩] :
            List CandidateQuote)[j]? = some cj →
        mmrScore 1 [] cj < mmrScore 1 [] ci) ∧
      (∀ (j : Nat) cj,
        ([⟨"to be", ⟨"T", none, none, "1", "0,1"⟩, 1⟩,
          ⟨"to be", ⟨"T", none, none, "1", "2,3"⟩, 1⟩] :
            List CandidateQuote)[j]? = some cj →
        mmrScore 1 [] cj ≤ mmrScore 1 [] ci)) :=
  ⟨rank_candidates_deterministic.1 _ _ _ _ rfl rfl,
    rank_candidates_deterministic.2 1 [] _ 0
      (by norm_num [argmaxFirst, argmaxFirstAux, mmrScore, relevance,
        maxSimilarity])⟩

/-! ## C3 — the failsafe path is self-consistent under validation -/

/-- `_create_single_quote_result` always succeeds, returning the
single-reference failsafe dict built from the quote, and its only
possible event is the justified mark of that quote's own reference. -/
theorem create_single_quote_result_spec (q : CandidateQuote) (modern : String) :
    ∃ ev, create_single_quote_result q modern =
      (Except.ok (TranslationResult.mk q.text ["failsafe_1"] [q.reference]
        modern none true), ev) ∧
      marksJustified
        (some (TranslationResult.mk q.text ["failsafe_1"] [q.reference]
          modern none true)) ev = true := by
  cases hp : parseWordIndexFailsafe q.reference.word_index with
  | some idxs =>
    refine ⟨[Event.marked (mkRefKey q.reference) idxs], ?_, ?_⟩
    · simp only [create_single_quote_result, hp]; rfl
    · simp [marksJustified, marksJustifiedAux, failsafeLinked, hp]
  | none =>
    refine ⟨[], ?_, ?_⟩
    · simp only [create_single_quote_result, hp]; rfl
    · simp [marksJustified, marksJustifiedAux]

/-- C3: a result of `_create_single_quote_result` from a quote whose
reference resolves to a ground-truth line and whose declared word-index
range extracts from that line's tokenization exactly the quote's own
words (at least one word), validates — `validate_line` on the result's
text and references returns `True`, via the alphanumeric-only fallback
comparison when the space-joined comparison differs.  The tokenizer may
be any word tokenizer that preserves alphanumeric content
(`htok`), as both the spaCy tokenizer and the regex fallback do. -/
theorem failsafe_round_trip_validates
    (tok : String → List String) (gt : List GroundTruthEntry)
    (q : CandidateQuote) (modern : String) (res : TranslationResult)
    (ev : List Event) (e : GroundTruthEntry) (s en : Int)
    (hres : create_single_quote_result q modern = (Except.ok res, ev))
    (htok : ∀ t : String,
      alphaOnly (normalize_and_clean (joinSpace (tok t))) =
        alphaOnly (normalize_and_clean t))
    (htitle : q.reference.title ≠ "") (hline : q.reference.line ≠ "")
    (hfind : findGt gt q.reference = some e)
    (hparse : parseWordIndexComma q.reference.word_index = some (s, en))
    (hextract : extractRange (tok e.text) s en = tok q.text)
    (hwords : tok q.text ≠ []) :
    validate_line tok gt res.text res.references = true := by
  obtain ⟨ev', heq, -⟩ := create_single_quote_result_spec q modern
  rw [heq] at hres
  have hres' : res = TranslationResult.mk q.text ["failsafe_1"] [q.reference]
      modern none true := by
    have := congrArg Prod.fst hres
    simpa using this.symm
  subst hres'
  have hwi : q.reference.word_index ≠ "" := by
    intro hw
    rw [hw] at hparse
    simp [parseWordIndexComma] at hparse
  have hpr : processRef tok gt q.reference = some (joinSpace (tok q.text)) := by
    unfold processRef
    rw [if_neg (by push_neg; exact ⟨htitle, hline⟩)]
    rw [hfind]
    dsimp only
    rw [if_pos hwi, hparse]
    dsimp only
    rw [hextract]
    rw [if_neg (by simp [List.isEmpty_iff, hwords])]
  unfold validate_line
  have hlist : List.filterMap (processRef tok gt) [q.reference] =
      [joinSpace (tok q.text)] := by
    simp [hpr]
  dsimp only
  rw [hlist]
  rw [if_neg (by simp)]
  apply Bool.or_eq_true_iff.mpr
  right
  have hjoin : String.join [alphaOnly (normalize_and_clean (joinSpace (tok q.text)))] =
      alphaOnly (normalize_and_clean (joinSpace (tok q.text))) := by
    simp [String.join]
  simp only [List.map_cons, List.map_nil, hjoin, htok q.text]
  exact beq_self_eq_true _

/-- Witness for C3 with a concrete one-line corpus, the singleton
tokenizer (trivially alnum-preserving) and a full-line quote. -/
theorem failsafe_round_trip_validates_witness :
    validate_line (fun t => [t])
      [GroundTruthEntry.mk "Hamlet" (some "3") (some "1") "64" "to be or not"]
      (TranslationResult.mk "to be or not" ["failsafe_1"]
        [Reference.mk "Hamlet" (some "3") (some "1") "64" "0,0"]
        "should I exist" none true).text
      (TranslationResult.mk "to be or not" ["failsafe_1"]
        [Reference.mk "Hamlet" (some "3") (some "1") "64" "0,0"]
        "should I exist" none true).references = true :=
  failsafe_round_trip_validates (fun t => [t])
    [GroundTruthEntry.mk "Hamlet" (some "3") (some "1") "64" "to be or not"]
    (CandidateQuote.mk "to be or not"
      (Reference.mk "Hamlet" (some "3") (some "1") "64" "0,0") 1)
    "should I exist"
    (TranslationResult.mk "to be or not" ["failsafe_1"]
      [Reference.mk "Hamlet" (some "3") (some "1") "64" "0,0"]
      "should I exist" none true)
    [Event.marked "Hamlet|3|1|64" [0]]
    (GroundTruthEntry.mk "Hamlet" (some "3") (some "1") "64" "to be or not")
    0 0 rfl (fun _ => rfl) (by decide) (by decide) (by decide)
    (by decide) rfl (by decide)

/-! ## C1 — the non-overlap invariant of segmentation -/

/-- A false `overlaps` check means the range misses the used set. -/
theorem overlaps_false_forall {used : List Nat} {s e : Nat}
    (h : overlaps used s e = false) : ∀ i ∈ rangeSet s e, i ∉ used := by
  intro i hi hmem
  rw [overlaps, List.any_eq_false] at h
  exact absurd (by simpa using hmem) (by simpa using h i hi)

/-- The phrase acceptance loop only emits chunks whose ranges avoid the
incoming `used_indices`, and the emitted chunks are pairwise
disjoint. -/
theorem phraseLoop_spec (tok : String → List String) (tw : List String)
    (lc : LineChunk) (total : Nat) :
    ∀ (items : List (Nat × String)) (used : List Nat),
      (∀ c ∈ phraseLoop tok tw lc total items used,
        ∀ i ∈ rangeSet c.word_index_start c.word_index_end, i ∉ used) ∧
      List.Pairwise phraseDisjoint (phraseLoop tok tw lc total items used) := by
  intro items
  induction items with
  | nil => intro used; simp [phraseLoop]
  | cons it rest ih =>
    intro used
    obtain ⟨idx, phrase⟩ := it
    unfold phraseLoop
    by_cases hlen : (tok phrase).length < 3
    · rw [if_pos hlen]; exact ih used
    · rw [if_neg hlen]
      cases hfs : findSlice tw (tok phrase) with
      | none => exact ih used
      | some s =>
        dsimp only
        by_cases hov : overlaps used s (s + (tok phrase).length - 1)
        · rw [if_pos hov]; exact ih used
        · rw [if_neg hov]
          have hov' := overlaps_false_forall (Bool.not_eq_true _ ▸ hov)
          obtain ⟨ihA, ihP⟩ := ih (used ++ rangeSet s (s + (tok phrase).length - 1))
          constructor
          · intro c hc i hi
            rcases List.mem_cons.mp hc with rfl | hc'
            · exact hov' i hi
            · intro hmem
              exact ihA c hc' i hi (List.mem_append_left _ hmem)
          · refine List.Pairwise.cons ?_ ihP
            intro c hc ⟨i, hi1, hi2⟩
            exact ihA c hc i hi2 (List.mem_append_right _ hi1)

/-- The subtree acceptance loop satisfies the same invariant. -/
theorem subtreeLoop_spec (tw : List String) (minW maxW : Nat) (lc : LineChunk) :
    ∀ (subs : List (List String)) (fragIdx : Nat) (used : List Nat),
      (∀ c ∈ subtreeLoop tw minW maxW lc subs fragIdx used,
        ∀ i ∈ rangeSet c.word_index_start c.word_index_end, i ∉ used) ∧
      List.Pairwise fragDisjoint (subtreeLoop tw minW maxW lc subs fragIdx used) := by
  intro subs
  induction subs with
  | nil => intro fragIdx used; simp [subtreeLoop]
  | cons words rest ih =>
    intro fragIdx used
    unfold subtreeLoop
    by_cases hlen : words.length < minW ∨ words.length > maxW
    · rw [if_pos hlen]; exact ih fragIdx used
    · rw [if_neg hlen]
      cases hfs : findSlice tw words with
      | none => exact ih fragIdx used
      | some s =>
        dsimp only
        by_cases hov : overlaps used s (s + words.length - 1)
        · rw [if_pos hov]; exact ih fragIdx used
        · rw [if_neg hov]
          have hov' := overlaps_false_forall (Bool.not_eq_true _ ▸ hov)
          obtain ⟨ihA, ihP⟩ :=
            ih (fragIdx + 1) (used ++ rangeSet s (s + words.length - 1))
          constructor
          · intro c hc i hi
            rcases List.mem_cons.mp hc with rfl | hc'
            · exact hov' i hi
            · intro hmem
              exact ihA c hc' i hi (List.mem_append_left _ hmem)
          · refine List.Pairwise.cons ?_ ihP
            intro c hc ⟨i, hi1, hi2⟩
            exact ihA c hc i hi2 (List.mem_append_right _ hi1)

/-- What an accepted sliding window satisfies: within bounds and
non-overlapping. -/
theorem firstWindow_spec {n minW maxW : Nat} {used : List Nat} {i ws : Nat}
    (h : firstWindow n minW maxW used i = some ws) :
    minW ≤ ws ∧ ws ≤ maxW ∧ i + ws ≤ n ∧
      overlaps used i (i + ws - 1) = false := by
  have hmem := List.mem_of_find?_eq_some h
  have hp := List.find?_some h
  simp only [List.mem_map, List.mem_range] at hmem
  obtain ⟨k, hk, rfl⟩ := hmem
  simp only [Bool.and_eq_true, decide_eq_true_eq, Bool.not_eq_true'] at hp
  exact ⟨by omega, by omega, hp.1, hp.2⟩

/-- The sliding-window fallback satisfies the same invariant, for any
amount of fuel. -/
theorem slidingLoop_spec (tw : List String) (minW maxW : Nat) (lc : LineChunk) :
    ∀ (fuel i fragIdx : Nat) (used : List Nat),
      (∀ c ∈ slidingLoop tw minW maxW lc fuel i fragIdx used,
        ∀ j ∈ rangeSet c.word_index_start c.word_index_end, j ∉ used) ∧
      List.Pairwise fragDisjoint (slidingLoop tw minW maxW lc fuel i fragIdx used) := by
  intro fuel
  induction fuel with
  | zero => intro i fragIdx used; simp [slidingLoop]
  | succ f ih =>
    intro i fragIdx used
    unfold slidingLoop
    by_cases hcond : i + minW ≤ tw.length
    · rw [if_pos hcond]
      cases hfw : firstWindow tw.length minW maxW used i with
      | none => exact ih (i + 1) fragIdx used
      | some ws =>
        obtain ⟨-, -, -, hov⟩ := firstWindow_spec hfw
        have hov' := overlaps_false_forall hov
        obtain ⟨ihA, ihP⟩ :=
          ih (i + 1) (fragIdx + 1) (used ++ rangeSet i (i + ws - 1))
        constructor
        · intro c hc j hj
          rcases List.mem_cons.mp hc with rfl | hc'
          · exact hov' j hj
          · intro hmem
            exact ihA c hc' j hj (List.mem_append_left _ hmem)
        · refine List.Pairwise.cons ?_ ihP
          intro c hc ⟨j, hj1, hj2⟩
          exact ihA c hc j hj2 (List.mem_append_right _ hj1)
    · rw [if_neg hcond]; simp

/-- C1: for one parent line and a fixed granularity, no two chunks share
a word index — the phrase chunks of a line are pairwise disjoint, as are
its fragment chunks, under both fragment strategies (the subtree loop
and the sliding-window fallback), for every tokenizer and subtree
input. -/
theorem chunk_nonoverlap_invariant
    (tok : String → List String) (subtreesOf : String → List (List String))
    (minW : Nat) (lc : LineChunk) (tw : List String)
    (subs : List (List String)) (fuel : Nat) :
    List.Pairwise phraseDisjoint (phraseChunksOf tok lc) ∧
    List.Pairwise fragDisjoint (fragmentChunksOf tok subtreesOf minW lc) ∧
    List.Pairwise fragDisjoint (subtreeLoop tw minW 6 lc subs 0 []) ∧
    List.Pairwise fragDisjoint (slidingLoop tw minW 6 lc fuel 0 0 []) := by
  refine ⟨(phraseLoop_spec tok _ lc _ _ []).2, ?_,
    (subtreeLoop_spec tw minW 6 lc subs 0 []).2,
    (slidingLoop_spec tw minW 6 lc fuel 0 0 []).2⟩
  unfold fragmentChunksOf
  by_cases hsub : (subtreeLoop (tok (normalizeQuotes lc.text)) minW 6 lc
      (subtreesOf (normalizeQuotes lc.text)) 0 []).isEmpty
  · rw [if_pos hsub]
    exact (slidingLoop_spec _ minW 6 lc _ 0 0 []).2
  · rw [if_neg hsub]
    exact (subtreeLoop_spec _ minW 6 lc _ 0 []).2

/-! ## C8 — fragment word-count bounds and the 6-word line -/

/-- Every chunk the subtree strategy emits has its word count within
`[min_words, max_words]`. -/
theorem subtreeLoop_word_count (tw : List String) (minW maxW : Nat)
    (lc : LineChunk) :
    ∀ (subs : List (List String)) (fragIdx : Nat) (used : List Nat),
      ∀ c ∈ subtreeLoop tw minW maxW lc subs fragIdx used,
        minW ≤ c.word_count ∧ c.word_count ≤ maxW := by
  intro subs
  induction subs with
  | nil => intro fragIdx used c hc; simp [subtreeLoop] at hc
  | cons words rest ih =>
    intro fragIdx used c hc
    unfold subtreeLoop at hc
    by_cases hlen : words.length < minW ∨ words.length > maxW
    · rw [if_pos hlen] at hc; exact ih fragIdx used c hc
    · rw [if_neg hlen] at hc
      cases hfs : findSlice tw words with
      | none => rw [hfs] at hc; exact ih fragIdx used c hc
      | some s =>
        rw [hfs] at hc
        dsimp only at hc
        by_cases hov : overlaps used s (s + words.length - 1)
        · rw [if_pos hov] at hc; exact ih fragIdx used c hc
        · rw [if_neg hov] at hc
          rcases List.mem_cons.mp hc with rfl | hc'
          · push_neg at hlen
            exact ⟨hlen.1, hlen.2⟩
          · exact ih (fragIdx + 1) _ c hc'

/-- Every chunk the sliding-window fallback emits has its word count
within `[min_words, max_words]`. -/
theorem slidingLoop_word_count (tw : List String) (minW maxW : Nat)
    (lc : LineChunk) :
    ∀ (fuel i fragIdx : Nat) (used : List Nat),
      ∀ c ∈ slidingLoop tw minW maxW lc fuel i fragIdx used,
        minW ≤ c.word_count ∧ c.word_count ≤ maxW := by
  intro fuel
  induction fuel with
  | zero => intro i fragIdx used c hc; simp [slidingLoop] at hc
  | succ f ih =>
    intro i fragIdx used c hc
    unfold slidingLoop at hc
    by_cases hcond : i + minW ≤ tw.length
    · rw [if_pos hcond] at hc
      cases hfw : firstWindow tw.length minW maxW used i with
      | none => rw [hfw] at hc; exact ih (i + 1) fragIdx used c hc
      | some ws =>
        rw [hfw] at hc
        obtain ⟨h1, h2, h3, -⟩ := firstWindow_spec hfw
        rcases List.mem_cons.mp hc with rfl | hc'
        · constructor <;> simp only [List.length_take, List.length_drop] <;> omega
        · exact ih (i + 1) (fragIdx + 1) _ c hc'
    · rw [if_neg hcond] at hc; simp at hc

/-- C8: with `min_words = 3` (and `max_words` forced to 6 inside
`chunk_from_line_chunks`), every fragment chunk of a line has between 3
and 6 words inclusive, and a line whose token sequence has exactly 6
words yields at least one fragment chunk — whichever strategy applies,
for every tokenizer and subtree input. -/
theorem fragment_word_count_bounds
    (tok : String → List String) (subtreesOf : String → List (List String))
    (lc : LineChunk) :
    (∀ c ∈ fragmentChunksOf tok subtreesOf 3 lc,
      3 ≤ c.word_count ∧ c.word_count ≤ 6) ∧
    ((tok (normalizeQuotes lc.text)).length = 6 →
      1 ≤ (fragmentChunksOf tok subtreesOf 3 lc).length) := by
  constructor
  · intro c hc
    unfold fragmentChunksOf at hc
    by_cases hsub : (subtreeLoop (tok (normalizeQuotes lc.text)) 3 6 lc
        (subtreesOf (normalizeQuotes lc.text)) 0 []).isEmpty
    · rw [if_pos hsub] at hc
      exact slidingLoop_word_count _ 3 6 lc _ 0 0 [] c hc
    · rw [if_neg hsub] at hc
      exact subtreeLoop_word_count _ 3 6 lc _ 0 [] c hc
  · intro h6
    unfold fragmentChunksOf
    by_cases hsub : (subtreeLoop (tok (normalizeQuotes lc.text)) 3 6 lc
        (subtreesOf (normalizeQuotes lc.text)) 0 []).isEmpty
    · rw [if_pos hsub]
      rw [h6]
      have h0 : (0 : Nat) + 3 ≤ (tok (normalizeQuotes lc.text)).length := by omega
      unfold slidingLoop
      rw [if_pos (h6 ▸ h0), h6]
      have hfw : firstWindow 6 3 6 [] 0 = some 6 := by decide
      rw [hfw]
      simp
    · rw [if_neg hsub]
      rcases hne : subtreeLoop (tok (normalizeQuotes lc.text)) 3 6 lc
          (subtreesOf (normalizeQuotes lc.text)) 0 [] with _ | ⟨c, rest⟩
      · rw [hne] at hsub; simp at hsub
      · simp

/-- Witness for C8: the six-word line under the fallback tokenizer with
no subtrees yields exactly the full-line window `[0,5]`, whose word
count is 6. -/
theorem fragment_word_count_bounds_witness :
    (3 ≤ (FragmentChunk.mk "T" (some "1") (some "1") "1"
        "one two three four five six" 0 5 6 0 none).word_count ∧
      (FragmentChunk.mk "T" (some "1") (some "1") "1"
        "one two three four five six" 0 5 6 0 none).word_count ≤ 6) ∧
    1 ≤ (fragmentChunksOf fallbackTokenize (fun _ => []) 3
      (LineChunk.mk "l1" "T" (some "1") (some "1") "1"
        "one two three four five six")).length :=
  ⟨(fragment_word_count_bounds fallbackTokenize (fun _ => [])
      (LineChunk.mk "l1" "T" (some "1") (some "1") "1"
        "one two three four five six")).1
    (FragmentChunk.mk "T" (some "1") (some "1") "1"
      "one two three four five six" 0 5 6 0 none) (by decide),
   (fragment_word_count_bounds fallbackTokenize (fun _ => [])
      (LineChunk.mk "l1" "T" (some "1") (some "1") "1"
        "one two three four five six")).2 (by decide)⟩

/-! ## C7 — the `total_…_in_line` metadata -/

/-- Every chunk the phrase loop emits carries the `total` it was given
(`len(final_phrases)` in the source). -/
theorem phraseLoop_total (tok : String → List String) (tw : List String)
    (lc : LineChunk) (total : Nat) :
    ∀ (items : List (Nat × String)) (used : List Nat),
      ∀ c ∈ phraseLoop tok tw lc total items used,
        c.total_phrases_in_line = total := by
  intro items
  induction items with
  | nil => intro used c hc; simp [phraseLoop] at hc
  | cons it rest ih =>
    intro used c hc
    obtain ⟨idx, phrase⟩ := it
    unfold phraseLoop at hc
    by_cases hlen : (tok phrase).length < 3
    · rw [if_pos hlen] at hc; exact ih used c hc
    · rw [if_neg hlen] at hc
      cases hfs : findSlice tw (tok phrase) with
      | none => rw [hfs] at hc; exact ih used c hc
      | some s =>
        rw [hfs] at hc
        dsimp only at hc
        by_cases hov : overlaps used s (s + (tok phrase).length - 1)
        · rw [if_pos hov] at hc; exact ih used c hc
        · rw [if_neg hov] at hc
          rcases List.mem_cons.mp hc with rfl | hc'
          · rfl
          · exact ih _ c hc'

/-- C7 as stated is false on the code: in the phrase chunker,
`total_phrases_in_line` is `len(final_phrases)` — fixed before the
under-3-words and alignment filters run — so the line
`"Ay, my good lord"` produces one phrase chunk carrying
`total_phrases_in_line = 2`. -/
theorem chunk_totals_counterexample :
    ¬ (∀ c ∈ phrase_chunk_from_line_chunks fallbackTokenize
        [LineChunk.mk "l1" "T" (some "1") (some "1") "1" "Ay, my good lord"],
        c.total_phrases_in_line =
          (phrase_chunk_from_line_chunks fallbackTokenize
            [LineChunk.mk "l1" "T" (some "1") (some "1") "1" "Ay, my good lord"]).countP
            (fun c' => decide (phraseKey c' = phraseKey c))) := by decide

/-- C7 amended: every fragment chunk's `total_fragments_in_line` equals
the number of fragment chunks actually created for its parent line (the
post-hoc `line_to_count` pass); every phrase chunk's
`total_phrases_in_line` equals the number of candidate phrases after
punctuation/comma splitting (`len(final_phrases)`), which may exceed
the number of phrase chunks actually created, since short or
unalignable phrases are skipped after that count is fixed. -/
theorem chunk_totals_amended :
    (∀ (tok : String → List String) (subtreesOf : String → List (List String))
        (minW : Nat) (lineChunks : List LineChunk) (c : FragmentChunk),
      c ∈ fragment_chunk_from_line_chunks tok subtreesOf minW lineChunks →
      c.total_fragments_in_line = some
        ((fragment_chunk_from_line_chunks tok subtreesOf minW lineChunks).countP
          (fun c' => decide (fragKey c' = fragKey c)))) ∧
    (∀ (tok : String → List String) (lc : LineChunk) (c : PhraseChunk),
      c ∈ phraseChunksOf tok lc →
      c.total_phrases_in_line = (finalPhrases (normalizeQuotes lc.text)).length) := by
  constructor
  · intro tok subtreesOf minW lineChunks c hc
    simp only [fragment_chunk_from_line_chunks] at hc ⊢
    obtain ⟨c0, hc0, rfl⟩ := List.mem_map.mp hc
    simp only [List.countP_map]
    congr 1
  · intro tok lc c hc
    exact phraseLoop_total tok _ lc _ _ [] c hc

/-- Witness for C7 amended: the fragment total of the six-word line is
the exact chunk count 1; the phrase total of `"Ay, my good lord"` is
`len(final_phrases) = 2` although only one chunk was created. -/
theorem chunk_totals_amended_witness :
    (FragmentChunk.mk "T" (some "1") (some "1") "1"
        "one two three four five six" 0 5 6 0 (some 1)).total_fragments_in_line =
      some ((fragment_chunk_from_line_chunks fallbackTokenize (fun _ => []) 3
        [LineChunk.mk "l1" "T" (some "1") (some "1") "1"
          "one two three four five six"]).countP
        (fun c' => decide (fragKey c' = fragKey
          (FragmentChunk.mk "T" (some "1") (some "1") "1"
            "one two three four five six" 0 5 6 0 (some 1))))) ∧
    (PhraseChunk.mk "T" (some "1") (some "1") "1" "my good lord" 1 3 3 1 2).total_phrases_in_line =
      (finalPhrases (normalizeQuotes "Ay, my good lord")).length :=
  ⟨chunk_totals_amended.1 fallbackTokenize (fun _ => []) 3
    [LineChunk.mk "l1" "T" (some "1") (some "1") "1"
      "one two three four five six"]
    (FragmentChunk.mk "T" (some "1") (some "1") "1"
      "one two three four five six" 0 5 6 0 (some 1)) (by decide),
   chunk_totals_amended.2 fallbackTokenize
    (LineChunk.mk "l1" "T" (some "1") (some "1") "1" "Ay, my good lord")
    (PhraseChunk.mk "T" (some "1") (some "1") "1" "my good lord" 1 3 3 1 2)
    (by decide)⟩

/-! ## C2 / C9 — the translation workflow

Equation lemmas for the `TM` monad, then shape lemmas for each stage of
`translate_line`, composed into `GoodRun` of every run. -/

@[simp] theorem tm_bind_def {α β : Type} (m : TM α) (f : α → TM β) :
    m >>= f = tmBind m f := rfl

@[simp] theorem tm_pure_def {α : Type} (a : α) :
    (pure a : TM α) = (Except.ok a, []) := rfl

@[simp] theorem tmBind_ok {α β : Type} (a : α) (ev : List Event) (f : α → TM β) :
    tmBind (Except.ok a, ev) f = ((f a).1, ev ++ (f a).2) := by
  unfold tmBind
  rcases hfa : f a with ⟨r, ev2⟩
  simp [hfa]

@[simp] theorem tmBind_error {α β : Type} (e : Unit) (ev : List Event)
    (f : α → TM β) : tmBind (Except.error e, ev) f = (Except.error e, ev) := rfl

@[simp] theorem tmTry_ok {α : Type} (a : α) (ev : List Event)
    (h : Unit → TM α) : tmTry (Except.ok a, ev) h = (Except.ok a, ev) := rfl

@[simp] theorem tmTry_error {α : Type} (e : Unit) (ev : List Event)
    (h : Unit → TM α) : tmTry (Except.error e, ev) h = ((h e).1, ev ++ (h e).2) := by
  unfold tmTry
  rcases hhe : h e with ⟨r, ev2⟩
  simp [hhe]

@[simp] theorem call_def {α : Type} (x : Except Unit α) : call x = (x, []) := rfl

@[simp] theorem emit_def (e : Event) : emit e = (Except.ok (), [e]) := rfl

@[simp] theorem tmThrow_def {α : Type} :
    (tmThrow : TM α) = (Except.error (), []) := rfl

/-- `marksJustifiedAux` is monotone in the `seen` flag. -/
theorem marksJustifiedAux_mono (r : Option TranslationResult) :
    ∀ (ev : List Event) (s s' : Bool), (s = true → s' = true) →
      marksJustifiedAux r s ev = true → marksJustifiedAux r s' ev = true := by
  intro ev
  induction ev with
  | nil => intro s s' _ _; rfl
  | cons e rest ih =>
    intro s s' hs h
    cases e with
    | validated t ok =>
      simp only [marksJustifiedAux] at h ⊢
      refine ih _ _ ?_ h
      intro hor
      rcases Bool.or_eq_true_iff.mp hor with h1 | h2
      · exact Bool.or_eq_true_iff.mpr (Or.inl (hs h1))
      · exact Bool.or_eq_true_iff.mpr (Or.inr h2)
    | marked k idxs =>
      simp only [marksJustifiedAux, Bool.and_eq_true] at h ⊢
      obtain ⟨h1, h2⟩ := h
      refine ⟨?_, ih _ _ hs h2⟩
      rcases Bool.or_eq_true_iff.mp h1 with h1' | h1'
      · exact Bool.or_eq_true_iff.mpr (Or.inl (hs h1'))
      · exact Bool.or_eq_true_iff.mpr (Or.inr h1')

/-- A mark-free prefix never breaks mark justification. -/
theorem marksJustifiedAux_append (r : Option TranslationResult) :
    ∀ (ev1 : List Event) (s : Bool) (ev2 : List Event),
      noMarks ev1 = true → marksJustifiedAux r false ev2 = true →
      marksJustifiedAux r s (ev1 ++ ev2) = true := by
  intro ev1
  induction ev1 with
  | nil =>
    intro s ev2 _ h2
    exact marksJustifiedAux_mono r ev2 false s (by simp) h2
  | cons e rest ih =>
    intro s ev2 h1 h2
    cases e with
    | validated t ok =>
      simp only [List.cons_append, marksJustifiedAux]
      exact ih _ ev2 (by simpa [noMarks] using h1) h2
    | marked k idxs =>
      simp [noMarks] at h1

/-- The STEP 6 marking loop succeeds with a trace of marks only, and any
trace of marks is justified once a validation has been seen. -/
theorem markRefs_spec :
    ∀ refs : List Reference, ∃ ev, markRefs refs = (Except.ok (), ev) ∧
      (∀ r : Option TranslationResult, marksJustifiedAux r true ev = true) := by
  intro refs
  induction refs with
  | nil => exact ⟨[], rfl, fun r => rfl⟩
  | cons ref rest ih =>
    obtain ⟨ev, hev, hjust⟩ := ih
    cases hp : parseWordIndexStep6 ref.word_index with
    | some idxs =>
      refine ⟨Event.marked (mkRefKey ref) idxs :: ev, ?_, ?_⟩
      · simp [markRefs, hp, hev]
      · intro r
        simp only [marksJustifiedAux, Bool.true_or, Bool.true_and]
        exact hjust r
    | none =>
      refine ⟨ev, ?_, hjust⟩
      simp [markRefs, hp, hev]

/-- The fresh-retrieval failsafe always completes, with a justified
trace, returning `None` or a failsafe result. -/
theorem freshFailsafe_spec (C : Collab) (modern : String) :
    ∃ r ev, freshFailsafe C modern = (Except.ok r, ev) ∧
      marksJustified r ev = true ∧
      (r = none ∨ ∃ res, r = some res ∧ res.is_failsafe = true) := by
  unfold freshFailsafe
  cases hr : C.retrieveAll 1 with
  | error e => exact ⟨none, [], by simp [hr], rfl, Or.inl rfl⟩
  | ok fb =>
    cases hline : fb.line with
    | nil => exact ⟨none, [], by simp [hr, hline], rfl, Or.inl rfl⟩
    | cons q rest =>
      obtain ⟨ev, hcq, hmj⟩ := create_single_quote_result_spec q modern
      exact ⟨some (TranslationResult.mk q.text ["failsafe_1"] [q.reference]
          modern none true), ev,
        by simp [hr, hline, hcq], hmj, Or.inr ⟨_, rfl, rfl⟩⟩

/-- The initial hybrid-search block either continues with results and an
empty trace, or returns early like a failsafe. -/
theorem hybridInit_spec (C : Collab) (modern : String) :
    (∃ sr, hybridInit C modern = (Except.ok (Sum.inr sr), [])) ∨
    (∃ r ev, hybridInit C modern = (Except.ok (Sum.inl r), ev) ∧
      marksJustified r ev = true ∧
      (r = none ∨ ∃ res, r = some res ∧ res.is_failsafe = true)) := by
  unfold hybridInit
  cases hs : C.hybridSearch 15 with
  | error e =>
    right
    cases hr : C.retrieveAll 1 with
    | error e2 => exact ⟨none, [], by simp [hs, hr], rfl, Or.inl rfl⟩
    | ok fb =>
      cases hline : fb.line with
      | nil => exact ⟨none, [], by simp [hs, hr, hline], rfl, Or.inl rfl⟩
      | cons q rest =>
        obtain ⟨ev, hcq, hmj⟩ := create_single_quote_result_spec q modern
        exact ⟨some (TranslationResult.mk q.text ["failsafe_1"] [q.reference]
            modern none true), ev,
          by simp [hs, hr, hline, hcq], hmj, Or.inr ⟨_, rfl, rfl⟩⟩
  | ok r =>
    by_cases h0 : totalCandidates r = 0
    · right
      cases hr : C.retrieveAll 1 with
      | error e2 => exact ⟨none, [], by simp [hs, h0, hr], rfl, Or.inl rfl⟩
      | ok fb =>
        cases hline : fb.line with
        | nil => exact ⟨none, [], by simp [hs, h0, hr, hline], rfl, Or.inl rfl⟩
        | cons q rest =>
          obtain ⟨ev, hcq, hmj⟩ := create_single_quote_result_spec q modern
          exact ⟨some (TranslationResult.mk q.text ["failsafe_1"] [q.reference]
              modern none true), ev,
            by simp [hs, h0, hr, hline, hcq], hmj, Or.inr ⟨_, rfl, rfl⟩⟩
    · exact Or.inl ⟨some r, by simp [hs, h0]⟩

/-- STEPs 2–7 either complete as a `GoodRun`, or raise with a mark-free
trace. -/
theorem assembleStage_spec (C : Collab) (modern : String) (hybrid : Bool)
    (ps : PromptStructure) (tmap : TempMap)
    (recurse : TM (Option TranslationResult))
    (hrec : hybrid = false → GoodRun recurse) :
    GoodRun (assembleStage C modern hybrid ps tmap recurse) ∨
    (∃ ev, assembleStage C modern hybrid ps tmap recurse = (Except.error (), ev) ∧
      noMarks ev = true) := by
  unfold assembleStage
  cases hasm : C.assemble ps (if hybrid then 0 else 1) with
  | error e => exact Or.inr ⟨[], by simp [hasm], rfl⟩
  | ok asm? =>
    cases asm? with
    | none =>
      cases hhyb : hybrid with
      | true =>
        refine Or.inr ⟨[], ?_, rfl⟩
        rw [hhyb] at hasm
        simp [hhyb] at hasm ⊢
        simp [hasm]
      | false =>
        obtain ⟨r, ev, hre, hmj, hnf⟩ := hrec hhyb
        refine Or.inl ⟨r, ev, ?_, hmj, hnf⟩
        rw [hhyb] at hasm
        simp [hhyb] at hasm ⊢
        simp [hasm, hre]
    | some a =>
      by_cases htext : pyStrip a.text = "" ∨ a.temp_ids = []
      · exact Or.inr ⟨[], by simp [hasm, htext], rfl⟩
      · by_cases hinv : a.temp_ids.any (fun t => !((tmap.map Prod.fst).contains t))
        · refine Or.inr ⟨[], ?_, rfl⟩
          simp only [call_def, tm_bind_def]
          rw [hasm]
          simp only [tmBind_ok]
          rw [if_neg htext, if_pos hinv]
          simp
        · cases hval : C.validate (pyStrip a.text)
            ((a.temp_ids.filterMap
              (fun t => (tmap.find? (fun p => p.1 == t)).map Prod.snd)).map
              (fun c => c.reference)) with
          | error e =>
            refine Or.inr ⟨[], ?_, rfl⟩
            simp only [call_def, tm_bind_def]
            rw [hasm]
            simp only [tmBind_ok]
            rw [if_neg htext, if_neg hinv]
            rw [hval]
            simp
          | ok v =>
            cases v with
            | false =>
              refine Or.inr ⟨[Event.validated (pyStrip a.text) false], ?_,
                by simp [noMarks]⟩
              simp only [call_def, tm_bind_def]
              rw [hasm]
              simp only [tmBind_ok]
              rw [if_neg htext, if_neg hinv]
              rw [hval]
              simp
            | true =>
              obtain ⟨evm, hmr, hjm⟩ := markRefs_spec
                ((a.temp_ids.filterMap
                  (fun t => (tmap.find? (fun p => p.1 == t)).map Prod.snd)).map
                  (fun c => c.reference))
              refine Or.inl ⟨some (TranslationResult.mk (pyStrip a.text)
                  a.temp_ids
                  ((a.temp_ids.filterMap
                    (fun t => (tmap.find? (fun p => p.1 == t)).map Prod.snd)).map
                    (fun c => c.reference))
                  modern (some (if hybrid then "HYBRID" else "STANDARD")) false),
                Event.validated (pyStrip a.text) true :: evm, ?_, ?_, ?_⟩
              · simp only [call_def, tm_bind_def]
                rw [hasm]
                simp only [tmBind_ok]
                rw [if_neg htext, if_neg hinv]
                rw [hval]
                simp [hmr]
              · simp only [marksJustified, marksJustifiedAux, resultTextIs,
                  Bool.not_false, beq_self_eq_true, Bool.and_self,
                  Bool.true_and, Bool.and_true, Bool.false_or, Bool.or_false]
                exact hjm _
              · simp [nonFailsafeHasValidation, List.contains_cons]

/-- A `None` or failsafe result trivially satisfies
`nonFailsafeHasValidation` on any trace. -/
theorem nfhv_of_failsafe {r : Option TranslationResult} (ev : List Event)
    (h : r = none ∨ ∃ res, r = some res ∧ res.is_failsafe = true) :
    nonFailsafeHasValidation r ev = true := by
  rcases h with rfl | ⟨res, rfl, hfs⟩
  · rfl
  · simp [nonFailsafeHasValidation, hfs]

/-- STEP 1 composed with the assembly stage: a `GoodRun` or a raise with
a mark-free trace. -/
theorem innerBody_spec (C : Collab) (modern : String) (hybrid : Bool)
    (cur : Option SelectorResults) (recurse : TM (Option TranslationResult))
    (hrec : hybrid = false → GoodRun recurse) :
    GoodRun (innerBody C modern hybrid cur recurse) ∨
    (∃ ev, innerBody C modern hybrid cur recurse = (Except.error (), ev) ∧
      noMarks ev = true) := by
  unfold innerBody
  cases hprep : C.prepare cur with
  | error e => exact Or.inr ⟨[], by simp [hprep], rfl⟩
  | ok r0 =>
    by_cases hlt : totalOptions (r0.1 ++ [("metadata", [()])]) < 3
    · cases hext : (if hybrid then C.hybridSearch 25 else C.retrieveAll 20) with
      | error e => exact Or.inr ⟨[], by simp [hprep, hlt, hext], rfl⟩
      | ok ext =>
        cases hprep2 : C.prepare (some ext) with
        | error e => exact Or.inr ⟨[], by simp [hprep, hlt, hext, hprep2], rfl⟩
        | ok r2 =>
          by_cases htot2 : totalOptions r2.1 = 0
          · exact Or.inr ⟨[], by simp [hprep, hlt, hext, hprep2, htot2], rfl⟩
          · rcases assembleStage_spec C modern hybrid r2.1 r2.2 recurse hrec with
              ⟨r, ev, has, hmj, hnf⟩ | ⟨ev, has, hnm⟩
            · exact Or.inl ⟨r, ev,
                by simp [hprep, hlt, hext, hprep2, htot2, has], hmj, hnf⟩
            · exact Or.inr ⟨ev,
                by simp [hprep, hlt, hext, hprep2, htot2, has], hnm⟩
    · rcases assembleStage_spec C modern hybrid (r0.1 ++ [("metadata", [()])])
        r0.2 recurse hrec with ⟨r, ev, has, hmj, hnf⟩ | ⟨ev, has, hnm⟩
      · exact Or.inl ⟨r, ev, by simp [hprep, hlt, has], hmj, hnf⟩
      · exact Or.inr ⟨ev, by simp [hprep, hlt, has], hnm⟩

/-- The `except` handler at line 325 completes with a justified trace
and a `None`-or-failsafe value. -/
theorem innerHandler_spec (C : Collab) (modern : String)
    (cur : Option SelectorResults) :
    ∃ r ev, innerHandler C modern cur = (Except.ok r, ev) ∧
      marksJustified r ev = true ∧
      (r = none ∨ ∃ res, r = some res ∧ res.is_failsafe = true) := by
  unfold innerHandler
  cases cur with
  | none => exact freshFailsafe_spec C modern
  | some r =>
    cases hline : r.line with
    | nil =>
      obtain ⟨rr, ev, heq, hmj, hnf⟩ := freshFailsafe_spec C modern
      exact ⟨rr, ev, by simp only [hline]; exact heq, hmj, hnf⟩
    | cons q rest =>
      obtain ⟨ev, hcq, hmj⟩ := create_single_quote_result_spec q modern
      exact ⟨some (TranslationResult.mk q.text ["failsafe_1"] [q.reference]
          modern none true), ev,
        by simp [hline, hcq], hmj, Or.inr ⟨_, rfl, rfl⟩⟩

/-- The inner `try/except` of `translate_line` is always a
`GoodRun`. -/
theorem innerTry_goodRun (C : Collab) (modern : String) (hybrid : Bool)
    (cur : Option SelectorResults) (recurse : TM (Option TranslationResult))
    (hrec : hybrid = false → GoodRun recurse) :
    GoodRun (tmTry (innerBody C modern hybrid cur recurse)
      (fun _ => innerHandler C modern cur)) := by
  rcases innerBody_spec C modern hybrid cur recurse hrec with
    ⟨r, ev, hib, hmj, hnf⟩ | ⟨ev, hib, hnm⟩
  · exact ⟨r, ev, by simp [hib], hmj, hnf⟩
  · obtain ⟨r2, ev2, hih, hmj2, hnf2⟩ := innerHandler_spec C modern cur
    refine ⟨r2, ev ++ ev2, by simp [hib, hih], ?_, nfhv_of_failsafe _ hnf2⟩
    exact marksJustifiedAux_append r2 ev false ev2 hnm hmj2

/-- The whole body of `translate_line` for a started session is a
`GoodRun`, given that its hybrid re-entry is. -/
theorem mainFlow_goodRun (C : Collab) (modern : String) (hybrid : Bool)
    (selRes : Option SelectorResults) (recurse : TM (Option TranslationResult))
    (hrec : hybrid = false → GoodRun recurse) :
    GoodRun (mainFlow C modern hybrid selRes recurse) := by
  unfold mainFlow
  by_cases hinit : (hybrid && selRes.isNone) = true
  · rcases hybridInit_spec C modern with ⟨sr, hhi⟩ | ⟨r, ev, hhi, hmj, hnf⟩
    · obtain ⟨r, ev, hteq, hmj, hnf⟩ :=
        innerTry_goodRun C modern hybrid sr recurse hrec
      exact ⟨r, ev, by simp [hinit, hhi, hteq], hmj, hnf⟩
    · exact ⟨r, ev, by simp [hinit, hhi], hmj, nfhv_of_failsafe _ hnf⟩
  · obtain ⟨r, ev, hteq, hmj, hnf⟩ :=
      innerTry_goodRun C modern hybrid selRes recurse hrec
    exact ⟨r, ev, by simp [hinit, hteq], hmj, hnf⟩

/-- Every run of `translate_line` in a started session is a
`GoodRun`. -/
theorem translate_line_goodRun (C : Collab) (modern : String)
    (selRes : Option SelectorResults) (hybrid : Bool) :
    GoodRun (translate_line C true modern selRes hybrid) := by
  unfold translate_line
  rw [if_pos rfl]
  cases hybrid with
  | true =>
    unfold translate_line_go
    exact mainFlow_goodRun C modern true selRes tmThrow
      (fun h => absurd h (by simp))
  | false =>
    unfold translate_line_go
    exact mainFlow_goodRun C modern false selRes _
      (fun _ => mainFlow_goodRun C modern true none tmThrow
        (fun h => absurd h (by simp)))

/-- C2 as stated is false on the code: with standard search, a prompt
preparation failure and a candidate line available, `translate_line`
reaches the failsafe, which marks the quote's reference used with no
validation anywhere in the run. -/
theorem usedmap_marks_counterexample :
    marksValidated
      (translate_line
        (Collab.mk (fun _ => Except.error ()) (fun _ => Except.error ())
          (fun _ => Except.error ()) (fun _ _ => Except.error ())
          (fun _ _ => Except.error ()))
        true "sell me your soul"
        (some (SelectorResults.mk
          [CandidateQuote.mk "to be or not"
            (Reference.mk "Hamlet" (some "3") (some "1") "64" "0,3") 1]
          [] []))
        false).2 = false := by decide

/-- C2 amended: within one started session, every `(reference_key,
word-index-range)` pair `translate_line` marks used either follows a
successful `Validator.validate_line` of the returned (non-failsafe)
result's text within that same execution, or is the single mark the
failsafe constructor performs on the returned failsafe result's own
reference — the failsafe path bypasses validation by design. -/
theorem usedmap_marks_amended (C : Collab) (modern : String)
    (selRes : Option SelectorResults) (hybrid : Bool) :
    ∃ r ev, translate_line C true modern selRes hybrid = (Except.ok r, ev) ∧
      marksJustified r ev = true := by
  obtain ⟨r, ev, heq, hmj, -⟩ := translate_line_goodRun C modern selRes hybrid
  exact ⟨r, ev, heq, hmj⟩

/-- C9: in a started session, `translate_line` never propagates an
exception, whatever the collaborators do or raise: every run returns —
an explicit `None`, a failsafe result dict, or a result dict whose text
passed `Validator.validate_line` during the run. -/
theorem translate_line_no_exception (C : Collab) (modern : String)
    (selRes : Option SelectorResults) (hybrid : Bool) :
    ∃ r ev, translate_line C true modern selRes hybrid = (Except.ok r, ev) ∧
      (r = none ∨ ∃ res, r = some res ∧
        (res.is_failsafe = true ∨
          (res.is_failsafe = false ∧
            ev.contains (Event.validated res.text true) = true))) := by
  obtain ⟨r, ev, heq, -, hnf⟩ := translate_line_goodRun C modern selRes hybrid
  refine ⟨r, ev, heq, ?_⟩
  cases r with
  | none => exact Or.inl rfl
  | some res =>
    refine Or.inr ⟨res, rfl, ?_⟩
    by_cases hfs : res.is_failsafe = true
    · exact Or.inl hfs
    · have hfs' : res.is_failsafe = false := by
        revert hfs; cases res.is_failsafe <;> simp
      refine Or.inr ⟨hfs', ?_⟩
      simpa [nonFailsafeHasValidation, hfs'] using hnf

end ShakespeareAI
